import Mathlib

/-!
Verification of the grpc-tap proxy core (package `proxy` and `broker`).

The definitions in this file are shallow embeddings of the Go source:

* `proxy/frame.go`   — `FrameCounter`, `CaptureReader`, `DetectCallType`,
  `ExtractPayload`, `DecompressGzip`, `protoWireToMap`, `mapToProtoWire`.
* `proxy/reverse_proxy.go` — `Replay`, `extractGRPCStatus`,
  `extractConnectStatus`, `httpStatusToGRPCCode`.
* `broker` package — `Broker.Subscribe` / `Broker.Publish`.

Bytes are modelled as `Nat` (values `< 256` where the byte comes off the
wire; functions that build bytes reduce modulo 256 exactly where the Go
code's `byte` conversions truncate).  Go `string`s whose content is only
compared or copied byte-for-byte are modelled as Lean `String`.
-/

namespace GrpcTap

/-- Wire protocol, from `proxy/proxy.go` (`Protocol`). -/
inductive Protocol where
  | grpc
  | grpcWeb
  | connect
deriving DecidableEq, Repr

/-- gRPC call type, from `proxy/proxy.go` (`CallType`). -/
inductive CallType where
  | unary
  | serverStream
  | clientStream
  | bidiStream
deriving DecidableEq, Repr

/-- `MaxCaptureSize` from `proxy/proxy.go`: 64 * 1024. -/
def MaxCaptureSize : Nat := 64 * 1024

/-- Go's `hasPrefix(s, prefix)` from `proxy/frame.go`:
`len(s) >= len(prefix) && s[:len(prefix)] == prefix`, i.e. a prefix test on
the character sequences (byte-wise in Go; identical on the ASCII content
types compared here). -/
def goHasPre (s pre : String) : Bool :=
  pre.data.isPrefixOf s.data

/-- `DetectCallType` from `proxy/frame.go`.  The two `*FrameCounter`
arguments may be nil in Go; a nil counter contributes count 0, so they are
modelled as `Option Nat` carrying the counter's `Count` field. -/
def DetectCallType (protocol : Protocol) (contentType : String)
    (reqFrames respFrames : Option Nat) : CallType :=
  if protocol = Protocol.connect then
    if contentType.length > 0 &&
        (goHasPre contentType "application/connect+proto" ||
         goHasPre contentType "application/connect+json") then
      CallType.serverStream
    else
      CallType.unary
  else
    let reqCount := match reqFrames with | some n => n | none => 0
    let respCount := match respFrames with | some n => n | none => 0
    if reqCount ≤ 1 ∧ respCount ≤ 1 then CallType.unary
    else if reqCount ≤ 1 then CallType.serverStream
    else if respCount ≤ 1 then CallType.clientStream
    else CallType.bidiStream

/-- `httpStatusToGRPCCode` from `proxy/reverse_proxy.go`.  The
`connect.Code*` constants are the canonical gRPC code numbers
(Internal = 13, Unauthenticated = 16, PermissionDenied = 7,
Unimplemented = 12, Unavailable = 14, Unknown = 2). -/
def httpStatusToGRPCCode (httpStatus : Nat) : Int :=
  if httpStatus = 400 then 13
  else if httpStatus = 401 then 16
  else if httpStatus = 403 then 7
  else if httpStatus = 404 then 12
  else if httpStatus = 429 then 14
  else if httpStatus = 502 ∨ httpStatus = 503 ∨ httpStatus = 504 then 14
  else 2

/-- `extractConnectStatus` from `proxy/reverse_proxy.go`.  `statusCode` is
`resp.StatusCode`, `statusText` is `resp.Status` (e.g. "401 Unauthorized"). -/
def extractConnectStatus (statusCode : Nat) (statusText : String) :
    Int × String :=
  if statusCode = 200 then (0, "")
  else (httpStatusToGRPCCode statusCode, statusText)

/-! ### FrameCounter (`proxy/frame.go`) -/

/-- State of a `FrameCounter`: `count` is the exported `Count`, `st` the
two-state scanner state (0 = header, 1 = payload), `hdrBuf` the bytes
accumulated into the 5-byte header buffer (`hdrN` is its length), `remain`
the remaining payload bytes. -/
structure FrameCounter where
  count : Nat
  st : Nat
  hdrBuf : List Nat
  remain : Nat
deriving DecidableEq, Repr

/-- `binary.BigEndian.Uint32` on a 4-byte slice. -/
def be32 (l : List Nat) : Nat :=
  match l with
  | [b1, b2, b3, b4] => ((b1 * 256 + b2) * 256 + b3) * 256 + b4
  | _ => 0

/-- Auxiliary measure for the termination of `scan`: the Go loop makes two
kinds of zero-byte progress steps (a header buffer already full, a payload
with nothing remaining), both impossible on reachable states. -/
def penFC (fc : FrameCounter) : Nat :=
  (if fc.st = 0 ∧ 5 ≤ fc.hdrBuf.length then 1 else 0) +
  (if fc.st ≠ 0 ∧ fc.remain = 0 then 2 else 0)

/-- `FrameCounter.scan` from `proxy/frame.go`: the loop consumes the chunk,
in header state copying `take = min(5-hdrN, len(data))` bytes into the
header buffer (parsing the length and bumping `Count` once 5 bytes have
arrived), in payload state skipping `min(len(data), remain)` bytes.
The header-full test is written `5 ≤ hdr.length` rather than `= 5`; the two
agree on every state the Go code can reach (`hdrN ≤ 5` always) and the
former keeps the function total on the degenerate states as well. -/
def scan (fc : FrameCounter) (data : List Nat) : FrameCounter :=
  match data with
  | [] => fc
  | d :: ds =>
    if fc.st = 0 then
      let need := 5 - fc.hdrBuf.length
      let tk := if (d :: ds).length < need then (d :: ds).length else need
      let hdr := fc.hdrBuf ++ (d :: ds).take tk
      if 5 ≤ hdr.length then
        let rem := be32 (hdr.drop 1)
        scan { count := fc.count + 1, st := if 0 < rem then 1 else 0,
               hdrBuf := [], remain := rem } ((d :: ds).drop tk)
      else
        scan { fc with hdrBuf := hdr } ((d :: ds).drop tk)
    else
      let skip := if fc.remain < (d :: ds).length then fc.remain else (d :: ds).length
      let rem := fc.remain - skip
      scan { fc with remain := rem, st := if rem = 0 then 0 else fc.st }
        ((d :: ds).drop skip)
termination_by 3 * data.length + penFC fc
decreasing_by
  · unfold_let hdr tk need at *
    by_cases hc : (d :: ds).length < 5 - fc.hdrBuf.length <;>
      simp_all only [penFC, List.length_drop, List.length_cons, List.length_nil,
        List.length_append, List.length_take, dite_eq_ite, if_true, if_false,
        eq_self_iff_true, true_and, false_and, and_true, and_false, ne_eq,
        not_false_iff, not_true] <;>
      split_ifs <;> omega
  · unfold_let hdr tk need at *
    by_cases hc : (d :: ds).length < 5 - fc.hdrBuf.length <;>
      simp_all only [penFC, List.length_drop, List.length_cons, List.length_nil,
        List.length_append, List.length_take, dite_eq_ite, if_true, if_false,
        eq_self_iff_true, true_and, false_and, and_true, and_false, ne_eq,
        not_false_iff, not_true] <;>
      split_ifs <;> omega
  · unfold_let rem skip at *
    by_cases hc : fc.remain < (d :: ds).length <;>
      simp_all only [penFC, List.length_drop, List.length_cons, List.length_nil,
        List.length_append, List.length_take, dite_eq_ite, if_true, if_false,
        eq_self_iff_true, true_and, false_and, and_true, and_false, ne_eq,
        not_false_iff, not_true] <;>
      split_ifs <;> omega

/-- One byte of `FrameCounter.scan`: the same state transition restricted to
a single input byte.  `scan` processes its chunk in maximal runs; on the
states the Go code reaches the two agree (proved below as `scan_eq_foldl`). -/
def scanByte (fc : FrameCounter) (b : Nat) : FrameCounter :=
  if fc.st = 0 then
    if 5 ≤ (fc.hdrBuf ++ [b]).length then
      { count := fc.count + 1,
        st := if 0 < be32 ((fc.hdrBuf ++ [b]).drop 1) then 1 else 0,
        hdrBuf := [], remain := be32 ((fc.hdrBuf ++ [b]).drop 1) }
    else { fc with hdrBuf := fc.hdrBuf ++ [b] }
  else
    { fc with remain := fc.remain - 1,
              st := if fc.remain - 1 = 0 then 0 else fc.st }

/-- The states a `FrameCounter` can reach: the header buffer never holds 5
bytes between `scan` calls, and payload state implies bytes remain. -/
def InvFC (fc : FrameCounter) : Prop :=
  fc.hdrBuf.length < 5 ∧ (fc.st ≠ 0 → 0 < fc.remain)

/-- The zero value built by `NewFrameCounter`. -/
def initFrameCounter : FrameCounter := ⟨0, 0, [], 0⟩

/-- Each `FrameCounter.Read` scans the chunk the underlying reader returned;
a whole stream read as a sequence of chunks is scanned chunk by chunk. -/
def scanChunks (fc : FrameCounter) (chunks : List (List Nat)) : FrameCounter :=
  chunks.foldl scan fc

/-- The four big-endian bytes of a `uint32` length, as written by a gRPC
frame header. -/
def beBytes32 (n : Nat) : List Nat :=
  [n / 2 ^ 24 % 256, n / 2 ^ 16 % 256, n / 2 ^ 8 % 256, n % 256]

/-- A gRPC length-prefixed frame: 1 flags byte, 4-byte big-endian length,
then the payload. -/
def encodeFrame (flags : Nat) (payload : List Nat) : List Nat :=
  flags :: (beBytes32 payload.length ++ payload)

/-- A stream made of concatenated frames. -/
def encodeFrames (frames : List (Nat × List Nat)) : List Nat :=
  (frames.map fun f => encodeFrame f.1 f.2).flatten

/-! ### CaptureReader (`proxy/frame.go`) -/

/-- `CaptureReader` state: captured buffer and the cap `maxSize`. -/
structure CaptureReader where
  buf : List Nat
  maxSize : Nat
deriving DecidableEq, Repr

/-- The buffer update done by one `CaptureReader.Read`: with
`remaining = maxSize - len(buf)`, if `remaining > 0` and the read returned
bytes, append `min(n, remaining)` of them (Go's `int` subtraction and the
guard agree with `Nat` truncated subtraction here, since the branch is
taken only when `remaining > 0`). -/
def captureScan (maxSize : Nat) (buf chunk : List Nat) : List Nat :=
  let remaining := maxSize - buf.length
  if 0 < remaining ∧ 0 < chunk.length then
    buf ++ chunk.take (if remaining < chunk.length then remaining else chunk.length)
  else buf

/-- `CaptureReader.Read`: returns the underlying reader's bytes and error
unchanged, and appends to the capture buffer.  The underlying `Read` result
is passed in as `(chunk, err)`. -/
def CaptureReader.read (cr : CaptureReader) (chunk : List Nat)
    (err : Option String) : (List Nat × Option String) × CaptureReader :=
  ((chunk, err), { cr with buf := captureScan cr.maxSize cr.buf chunk })

/-! ### strconv.ParseInt (Go standard library, as used by
`extractGRPCStatus` and `mapToProtoWire`) -/

/-- The two error kinds of `strconv`: syntax and range. -/
inductive GoNumErr where
  | badSyn
  | outOfRange
deriving DecidableEq, Repr

/-- The digit loop of `strconv.ParseUint(s, 10, 64)`, in exact arithmetic:
per step, a non-digit is a syntax error; `n ≥ cutoff` (`1<<64/10+1`) or a
product-sum exceeding `1<<64 - 1` returns `MaxUint64` with a range error. -/
def parseUintLoop : List Char → Nat → Nat × Option GoNumErr
  | [], n => (n, none)
  | c :: rest, n =>
    if 48 ≤ c.toNat ∧ c.toNat ≤ 57 then
      if 1844674407370955162 ≤ n then (18446744073709551615, some .outOfRange)
      else
        let n1 := n * 10 + (c.toNat - 48)
        if 18446744073709551615 < n1 then (18446744073709551615, some .outOfRange)
        else parseUintLoop rest n1
    else (0, some .badSyn)

/-- `strconv.ParseUint(s, 10, 64)`: empty input is a syntax error. -/
def parseUint64 (cs : List Char) : Nat × Option GoNumErr :=
  if cs = [] then (0, some .badSyn) else parseUintLoop cs 0

/-- `strconv.ParseInt(s, 10, bitSize)`: strips an optional sign, parses the
digits as a 64-bit unsigned value, then clamps into the signed `bitSize`
range (`cutoff = 1 << (bitSize-1)`).  Returns the value and whether the
parse was error-free; note that on a range error Go still returns the
clamped value, which the callers in this repository use after discarding
the error. -/
def parseIntGoE (bitSize : Nat) (s : String) : Int × Bool :=
  match s.data with
  | [] => (0, false)
  | c0 :: rest =>
    let neg := c0.toNat = 45
    let digits := if c0.toNat = 43 ∨ c0.toNat = 45 then rest else c0 :: rest
    match parseUint64 digits with
    | (_, some GoNumErr.badSyn) => (0, false)
    | (un, e) =>
      let cutoff : Nat := 2 ^ (bitSize - 1)
      if ¬neg ∧ cutoff ≤ un then ((cutoff : Int) - 1, false)
      else if neg ∧ cutoff < un then (-(cutoff : Int), false)
      else
        let v : Int := if neg then -(un : Int) else (un : Int)
        (v, e = none)

/-- The value of `strconv.ParseInt(s, 10, bitSize)` with the error
discarded (`code, _ := strconv.ParseInt(...)`). -/
def parseIntGo (bitSize : Nat) (s : String) : Int :=
  (parseIntGoE bitSize s).1

/-- `extractGRPCStatus` from `proxy/reverse_proxy.go`.  Headers and
trailers are modelled by their `Get` functions (`http.Header.Get` returns
`""` for an absent key). -/
def extractGRPCStatus (trailerGet headerGet : String → String) : Int × String :=
  let s := trailerGet "Grpc-Status"
  if s ≠ "" then (parseIntGo 32 s, trailerGet "Grpc-Message")
  else
    let s2 := headerGet "Grpc-Status"
    if s2 ≠ "" then (parseIntGo 32 s2, headerGet "Grpc-Message")
    else (0, "")

/-! ### Events and the broker (`proxy/proxy.go`, `broker` package) -/

/-- `Event` from `proxy/proxy.go`, restricted to the fields the claims
speak about (the wall-clock fields `StartTime`/`Duration` and the header
clones are omitted). -/
structure Event where
  id : String
  method : String
  callType : CallType
  protocol : Protocol
  status : Int
  errorMsg : String
  requestBody : List Nat
  responseBody : List Nat
deriving DecidableEq, Repr

/-- `Broker` state: each subscriber is an id paired with the contents of
its buffered channel (front of the list = next value to receive); `bufSize`
is the channel capacity fixed at construction. -/
structure Broker where
  subscribers : List (Nat × List Event)
  nextID : Nat
  bufSize : Nat
deriving DecidableEq, Repr

/-- `broker.New`. -/
def Broker.new (bufSize : Nat) : Broker := ⟨[], 0, bufSize⟩

/-- `Broker.Subscribe`: allocates the next id with a fresh channel of
capacity `bufSize` and returns the id (the Go function returns the channel
and an unsubscribe closure over this id). -/
def Broker.subscribe (b : Broker) : Broker × Nat :=
  (⟨b.subscribers ++ [(b.nextID, [])], b.nextID + 1, b.bufSize⟩, b.nextID)

/-- `Broker.Publish`: a non-blocking send (`select`/`default`) to every
subscriber — the event is appended when the channel buffer has room
(`length < capacity`) and dropped for that subscriber otherwise. -/
def Broker.publish (b : Broker) (ev : Event) : Broker :=
  { b with subscribers := b.subscribers.map fun s =>
      if s.2.length < b.bufSize then (s.1, s.2 ++ [ev]) else s }

/-- A non-blocking receive on one subscriber's channel (as the broker tests
do with `select`/`default`): returns the front event if any. -/
def Broker.receive (b : Broker) (id : Nat) : Option Event × Broker :=
  match b.subscribers.find? (fun s => s.1 = id) with
  | none => (none, b)
  | some s =>
    match s.2 with
    | [] => (none, b)
    | e :: rest =>
      (some e, { b with subscribers := b.subscribers.map fun t =>
        if t.1 = id then (t.1, rest) else t })

/-! ### Payload extraction and replay (`proxy/frame.go`,
`proxy/reverse_proxy.go`) -/

/-- `ExtractPayload` from `proxy/frame.go`, parameterised by the result of
`gzip.NewReader` + `io.ReadAll` (`gunzip data = none` models any gzip
error, on which the Go code falls back to the raw payload). -/
def ExtractPayload (gunzip : List Nat → Option (List Nat))
    (data : List Nat) : List Nat :=
  if data.length < 5 then data
  else
    let compressed := data.headD 0
    let length := be32 ((data.drop 1).take 4)
    if data.length - 5 < length then data
    else
      let payload := (data.drop 5).take length
      if compressed = 1 then
        match gunzip payload with
        | some decoded => decoded
        | none => payload
      else payload

/-- `DecompressGzip` from `proxy/frame.go`: gzip-decode only when the two
magic bytes `1f 8b` lead the data, falling back to the input on error. -/
def DecompressGzip (gunzip : List Nat → Option (List Nat))
    (data : List Nat) : List Nat :=
  if data.length < 2 ∨ data.headD 0 ≠ 0x1f ∨ (data.drop 1).headD 0 ≠ 0x8b then
    data
  else
    match gunzip data with
    | some decoded => decoded
    | none => data

/-- The captured-body post-processing of `ReverseProxy.ServeHTTP`
(`proxy/reverse_proxy.go`): gRPC / gRPC-Web bodies go through
`ExtractPayload`, Connect bodies through `DecompressGzip`. -/
def proxyBody (gunzip : List Nat → Option (List Nat)) (protocol : Protocol)
    (captured : List Nat) : List Nat :=
  if protocol = Protocol.grpc ∨ protocol = Protocol.grpcWeb then
    ExtractPayload gunzip captured
  else
    DecompressGzip gunzip captured

/-- A decompressor behaving like `compress/gzip` does on a small gzip
member whose plaintext is 65537 zero bytes (such members are ≈ 100 bytes
long: DEFLATE encodes the run with back-references, and the CRC32/ISIZE
trailer is 8 bytes).  Used to evaluate the proxy's body computation on a
captured frame that decompresses past `MaxCaptureSize`. -/
def expandingGunzip : List Nat → Option (List Nat) :=
  fun _ => some (List.replicate (MaxCaptureSize + 1) 0)

/-! ### Schema-less wire codec (`proxy/frame.go`: `protoWireToMap`,
`mapToProtoWire`, with the `protowire` primitives they call) -/

/-- Sign-extending `int32` cast of a `uint64`-ish value, as in
`protowire.DecodeTag`'s `Number(v >> 3)`. -/
def toInt32 (n : Nat) : Int :=
  let r : Nat := n % 2 ^ 32
  if r < 2 ^ 31 then (r : Int) else (r : Int) - 2 ^ 32

/-- Unrolled loop of `protowire.ConsumeVarint`: up to ten bytes, low bits
first, continuation bit `0x80`; the tenth byte must be `< 2`.  The Go
accumulator wraps at 64 bits, i.e. equals the exact sum modulo `2^64`. -/
def cvLoop : List Nat → Nat → Nat → Option (Nat × Nat)
  | [], _, _ => none
  | x :: rest, i, acc =>
    if i = 9 then
      if x < 2 then some ((acc + x * 2 ^ 63) % 2 ^ 64, 10) else none
    else if x < 128 then some ((acc + x * 2 ^ (7 * i)) % 2 ^ 64, i + 1)
    else cvLoop rest (i + 1) (acc + (x - 128) * 2 ^ (7 * i))

/-- `protowire.ConsumeVarint`: value and number of bytes consumed;
`none` models the negative error count (truncated / overflow). -/
def consumeVarint (b : List Nat) : Option (Nat × Nat) :=
  cvLoop b 0 0

/-- `protowire.ConsumeTag`: a varint, split as `num = int32(v >> 3)`
(error when `num < 1`) and `wtype = v & 7`. -/
def consumeTag (b : List Nat) : Option (Int × Nat × Nat) :=
  match consumeVarint b with
  | none => none
  | some (v, n) =>
    let num := toInt32 (v >>> 3)
    let wtype := v % 8
    if num < 1 then none else some (num, wtype, n)

/-- `protowire.ConsumeBytes`: a varint length `m` followed by `m` bytes. -/
def consumeBytes (b : List Nat) : Option (List Nat × Nat) :=
  match consumeVarint b with
  | none => none
  | some (m, n) =>
    let rest := b.drop n
    if rest.length < m then none else some (rest.take m, n + m)

/-- `protowire.ConsumeFixed32`: 4 bytes little-endian (bytes assumed
`< 256`, as Go's `byte` guarantees). -/
def consumeFixed32 (b : List Nat) : Option (Nat × Nat) :=
  match b with
  | b0 :: b1 :: b2 :: b3 :: _ =>
    some (b0 + 256 * (b1 + 256 * (b2 + 256 * b3)), 4)
  | _ => none

/-- `protowire.ConsumeFixed64`: 8 bytes little-endian. -/
def consumeFixed64 (b : List Nat) : Option (Nat × Nat) :=
  match b with
  | b0 :: b1 :: b2 :: b3 :: b4 :: b5 :: b6 :: b7 :: _ =>
    some (b0 + 256 * (b1 + 256 * (b2 + 256 *
      (b3 + 256 * (b4 + 256 * (b5 + 256 * (b6 + 256 * b7)))))), 8)
  | _ => none

/-- Loop of `protowire.AppendVarint`, with a structural fuel bound: each
step divides by 128, so 10 steps cover every `uint64`. -/
def avAux : Nat → Nat → List Nat
  | 0, v => [v]
  | fuel + 1, v =>
    if v < 128 then [v] else (v % 128 + 128) :: avAux fuel (v / 128)

/-- `protowire.AppendVarint` (for a value `< 2^64`, as at every call
site): low 7 bits with the continuation bit while the value is `≥ 0x80`,
then the final byte. -/
def appendVarint (v : Nat) : List Nat :=
  avAux 10 v

/-- `protowire.AppendTag`: `EncodeTag` is `uint64(num)<<3 | uint64(typ&7)`
(the `int32` field number is sign-extended into `uint64`, and the shift
wraps at 64 bits), then `AppendVarint`. -/
def appendTag (num : Int) (wtype : Nat) : List Nat :=
  appendVarint (((num % (2 ^ 64 : Int)).toNat * 8) % 2 ^ 64 + wtype % 8)

/-- `protowire.AppendBytes` / `AppendString`: varint length then the raw
bytes. -/
def appendBytes (v : List Nat) : List Nat :=
  appendVarint v.length ++ v

/-- `math.Float64bits` of a nonnegative integer-valued `float64` given by
its exact value (the only floats this pipeline produces); `n` is assumed
representable (53-bit mantissa), which every `f64round` output is. -/
def f64bits (n : Nat) : Nat :=
  if n = 0 then 0
  else
    let e := Nat.log2 n
    (e + 1023) * 2 ^ 52 + (n * 2 ^ 52 / 2 ^ e - 2 ^ 52)

/-- Round a natural number to the nearest `float64` (53 significant bits,
ties to even): the value change a Go `uint64` undergoes when marshalled to
a JSON number and re-parsed by `encoding/json` into `float64`. -/
def f64round (n : Nat) : Nat :=
  if n ≤ 2 ^ 53 then n
  else
    let k := Nat.log2 n + 1 - 53
    let q := n / 2 ^ k
    let r := n % 2 ^ k
    let h := 2 ^ (k - 1)
    if h < r ∨ (r = h ∧ q % 2 = 1) then (q + 1) * 2 ^ k else q * 2 ^ k

/-- The 8 little-endian bytes written by `protowire.AppendFixed64`. -/
def le64 (n : Nat) : List Nat :=
  [n % 256, n / 2 ^ 8 % 256, n / 2 ^ 16 % 256, n / 2 ^ 24 % 256,
   n / 2 ^ 32 % 256, n / 2 ^ 40 % 256, n / 2 ^ 48 % 256, n / 2 ^ 56 % 256]

/-- A UTF-8 continuation byte (`0x80..0xBF`). -/
def utf8Cont (c : Nat) : Bool :=
  decide (128 ≤ c ∧ c ≤ 191)

/-- `unicode/utf8.Valid`: proper UTF-8 — ASCII, or a leading byte in
`C2..DF` / `E0..EF` / `F0..F4` followed by continuation bytes constrained
exactly as Go's `acceptRanges` table (no overlong forms, no surrogates,
nothing above U+10FFFF). -/
def utf8Valid : List Nat → Bool
  | [] => true
  | b :: rest =>
    if b < 128 then utf8Valid rest
    else if 194 ≤ b ∧ b ≤ 223 then
      match rest with
      | c1 :: r => utf8Cont c1 && utf8Valid r
      | [] => false
    else if b = 224 then
      match rest with
      | c1 :: c2 :: r => decide (160 ≤ c1 ∧ c1 ≤ 191) && utf8Cont c2 && utf8Valid r
      | _ => false
    else if (225 ≤ b ∧ b ≤ 236) ∨ b = 238 ∨ b = 239 then
      match rest with
      | c1 :: c2 :: r => utf8Cont c1 && utf8Cont c2 && utf8Valid r
      | _ => false
    else if b = 237 then
      match rest with
      | c1 :: c2 :: r => decide (128 ≤ c1 ∧ c1 ≤ 159) && utf8Cont c2 && utf8Valid r
      | _ => false
    else if b = 240 then
      match rest with
      | c1 :: c2 :: c3 :: r =>
        decide (144 ≤ c1 ∧ c1 ≤ 191) && utf8Cont c2 && utf8Cont c3 && utf8Valid r
      | _ => false
    else if 241 ≤ b ∧ b ≤ 243 then
      match rest with
      | c1 :: c2 :: c3 :: r =>
        utf8Cont c1 && utf8Cont c2 && utf8Cont c3 && utf8Valid r
      | _ => false
    else if b = 244 then
      match rest with
      | c1 :: c2 :: c3 :: r =>
        decide (128 ≤ c1 ∧ c1 ≤ 143) && utf8Cont c2 && utf8Cont c3 && utf8Valid r
      | _ => false
    else false

/-- `isPrintableBytes` from `proxy/frame.go`: no control bytes below
`0x20` except TAB, LF, CR. -/
def isPrintableBytes (data : List Nat) : Bool :=
  data.all fun b => decide (¬(b < 32 ∧ b ≠ 10 ∧ b ≠ 13 ∧ b ≠ 9))

/-- A lowercase hex digit (as a byte). -/
def hexDigitByte (n : Nat) : Nat :=
  if n < 10 then 48 + n else 87 + n

/-- `fmt.Sprintf("%x", v)` on a byte slice: two lowercase hex digits per
byte, as the bytes of the resulting string. -/
def hexBytes (v : List Nat) : List Nat :=
  v.foldr (fun b acc => hexDigitByte (b / 16 % 16) :: hexDigitByte (b % 16) :: acc) []

/-- Digit-emitting loop of `strconv.FormatInt`, with a structural fuel
bound: each step divides by 10, so `n` steps always suffice. -/
def dcAux : Nat → Nat → List Char
  | 0, n => [Char.ofNat (48 + n % 10)]
  | fuel + 1, n =>
    if n < 10 then [Char.ofNat (48 + n % 10)]
    else dcAux fuel (n / 10) ++ [Char.ofNat (48 + n % 10)]

/-- The digit characters of `n` in base 10, most significant first. -/
def digitsChars (n : Nat) : List Char :=
  dcAux n n

/-- `strconv.FormatInt(int64(n), 10)` for a nonnegative value. -/
def natDecimal (n : Nat) : String :=
  ⟨digitsChars n⟩

/-- `strconv.FormatInt(i, 10)`. -/
def intDecimal (i : Int) : String :=
  if i < 0 then "-" ++ natDecimal (-i).toNat else natDecimal i.toNat

/-- A Go `any` value as stored in the codec's `map[string]any`.
`vUInt` is the decoder's `uint64`/`uint32`; `vFloat` is a `float64` as it
exists after a JSON round trip, carried by its exact value (every number in
this pipeline is a nonnegative integer-valued double, namely `f64round` of
a decoder integer); `vStr` is a Go string carried as its UTF-8 bytes;
`vMap` is a nested `map[string]any` as an association list (Go map keys
are unique; the list order only feeds the final explicit sort). -/
inductive GoVal where
  | vUInt (n : Nat)
  | vFloat (n : Nat)
  | vStr (bytes : List Nat)
  | vBool (b : Bool)
  | vMap (entries : List (String × GoVal))

/-- `m[key] = v` on a Go map modelled as an association list: overwrite in
place if the key exists, else append. -/
def assocPut (m : List (String × GoVal)) (k : String) (v : GoVal) :
    List (String × GoVal) :=
  if m.any fun kv => kv.1 = k then
    m.map fun kv => if kv.1 = k then (k, v) else kv
  else m ++ [(k, v)]

mutual

/-- The effect of `json.MarshalIndent` followed by `json.Unmarshal` into
`map[string]any` on one value produced by `protoWireToMap`: JSON numbers
come back as `float64` (rounding the integer to the nearest double),
strings and booleans unchanged, objects recursively. -/
def jsonRT : GoVal → GoVal
  | .vUInt n => .vFloat (f64round n)
  | .vFloat n => .vFloat n
  | .vStr s => .vStr s
  | .vBool b => .vBool b
  | .vMap m => .vMap (jsonRTEntries m)

/-- `jsonRT` over the entries of a map. -/
def jsonRTEntries : List (String × GoVal) → List (String × GoVal)
  | [] => []
  | (k, v) :: rest => (k, jsonRT v) :: jsonRTEntries rest

end

/-- The loop of `protoWireToMap` from `proxy/frame.go`.  `fuel` only bounds
the recursion (each iteration consumes at least one byte, so the wrapper's
`data.length + 1` never runs out; see `pwParse_fuel`): per field, consume a
tag, then by wire type a varint / fixed32 / fixed64 value stored as an
unsigned integer, or a length-delimited value stored as a nested map when
it decodes to a nonempty map, as a string when printable UTF-8, else as a
lowercase hex string.  Any other wire type is an error. -/
def pwParse : Nat → List (String × GoVal) → List Nat →
    Option (List (String × GoVal))
  | _, m, [] => some m
  | 0, _, _ :: _ => none
  | fuel + 1, m, d :: ds =>
    match consumeTag (d :: ds) with
    | none => none
    | some (num, wtype, n) =>
      let rest := (d :: ds).drop n
      let key := intDecimal num
      if wtype = 0 then
        match consumeVarint rest with
        | none => none
        | some (v, n2) => pwParse fuel (assocPut m key (.vUInt v)) (rest.drop n2)
      else if wtype = 5 then
        match consumeFixed32 rest with
        | none => none
        | some (v, n2) => pwParse fuel (assocPut m key (.vUInt v)) (rest.drop n2)
      else if wtype = 1 then
        match consumeFixed64 rest with
        | none => none
        | some (v, n2) => pwParse fuel (assocPut m key (.vUInt v)) (rest.drop n2)
      else if wtype = 2 then
        match consumeBytes rest with
        | none => none
        | some (v, n2) =>
          let val :=
            match pwParse fuel [] v with
            | some (e :: es) => GoVal.vMap (e :: es)
            | _ =>
              if utf8Valid v && isPrintableBytes v then GoVal.vStr v
              else GoVal.vStr (hexBytes v)
          pwParse fuel (assocPut m key val) (rest.drop n2)
      else none

/-- `protoWireToMap` from `proxy/frame.go`. -/
def protoWireToMap (data : List Nat) : Option (List (String × GoVal)) :=
  pwParse (data.length + 1) [] data

/-- The sort key used by `mapToProtoWire`'s `sort.Slice` comparison:
`a, _ := strconv.ParseInt(keys[i], 10, 64)`. -/
def entryKey (e : String × Nat × List Nat) : Int :=
  parseIntGo 64 e.1

/-- Insert into a list ascending by `entryKey`. -/
def insEntry (e : String × Nat × List Nat) :
    List (String × Nat × List Nat) → List (String × Nat × List Nat)
  | [] => [e]
  | x :: xs => if entryKey x ≤ entryKey e then x :: insEntry e xs else e :: x :: xs

/-- Sort ascending by `entryKey` (a stable rendition of `sort.Slice` with
the `parseInt`-based comparison; on the decimal keys the codec produces the
comparison is a strict total order, so stability does not matter). -/
def insSortEntries : List (String × Nat × List Nat) →
    List (String × Nat × List Nat)
  | [] => []
  | x :: xs => insEntry x (insSortEntries xs)

/-- Assemble the encoded entries in ascending field-number order, each as
`AppendTag(num, wtype)` followed by its body — the writing loop of
`mapToProtoWire`. -/
def mtpAssemble (es : List (String × Nat × List Nat)) : List Nat :=
  (insSortEntries es).foldl
    (fun acc e => acc ++ appendTag (parseIntGo 32 e.1) e.2.1 ++ e.2.2) []

mutual

/-- Per-value encoding of `mapToProtoWire` (`proxy/frame.go`): returns the
wire type and the value bytes.  A string becomes length-delimited bytes; a
`float64` becomes a varint when integer-valued in `[0, MaxInt64]` (always
integer-valued and nonnegative here, see `GoVal.vFloat`) and a fixed64 of
its IEEE bits otherwise; a map is encoded recursively and wrapped as
length-delimited bytes; a bool becomes varint 0/1; any other dynamic type
— in particular the decoder's own `uint64`, which never survives a JSON
round trip — is an encoding error. -/
def encodeVal : GoVal → Option (Nat × List Nat)
  | .vStr s => some (2, appendBytes s)
  | .vFloat f =>
    if f ≤ 2 ^ 63 then some (0, appendVarint f)
    else some (1, le64 (f64bits f))
  | .vBool b => some (0, if b then appendVarint 1 else appendVarint 0)
  | .vMap mm =>
    match mtpEntries mm with
    | none => none
    | some es => some (2, appendBytes (mtpAssemble es))
  | .vUInt _ => none

/-- Validate and encode each entry of a map: the key must satisfy
`strconv.ParseInt(key, 10, 32)` and the value must have a supported type.
Go walks the keys in sorted order aborting at the first error; checking
every entry and sorting afterwards (`mapToProtoWire` below) errors on
exactly the same maps and assembles the same bytes, since Go map keys are
unique. -/
def mtpEntries : List (String × GoVal) →
    Option (List (String × Nat × List Nat))
  | [] => some []
  | (k, v) :: rest =>
    if (parseIntGoE 32 k).2 then
      match encodeVal v with
      | none => none
      | some tv =>
        match mtpEntries rest with
        | none => none
        | some es => some ((k, tv) :: es)
    else none

end

/-- `mapToProtoWire` from `proxy/frame.go`. -/
def mapToProtoWire (m : List (String × GoVal)) : Option (List Nat) :=
  (mtpEntries m).map mtpAssemble

/-- The composite `ProtoWireToJSON` then `JSONToProtoWire`
(`proxy/frame.go`): decode the wire into a map, push it through the JSON
round trip, and re-encode. -/
def wireToJsonToWire (w : List Nat) : Option (List Nat) :=
  match protoWireToMap w with
  | none => none
  | some m => mapToProtoWire (jsonRTEntries m)

/-- The precondition named by the round-trip claim: the input parses and
every tag's wire type is varint or length-delimited. -/
def tagsOnlyVarintBytes : Nat → List Nat → Bool
  | _, [] => true
  | 0, _ :: _ => false
  | fuel + 1, d :: ds =>
    match consumeTag (d :: ds) with
    | none => false
    | some (_, wtype, n) =>
      let rest := (d :: ds).drop n
      if wtype = 0 then
        match consumeVarint rest with
        | none => false
        | some (_, n2) => tagsOnlyVarintBytes fuel (rest.drop n2)
      else if wtype = 2 then
        match consumeBytes rest with
        | none => false
        | some (_, n2) => tagsOnlyVarintBytes fuel (rest.drop n2)
      else false

/-- `tagsOnlyVarintBytes` with enough fuel. -/
def tagsOnlyVB (w : List Nat) : Bool :=
  tagsOnlyVarintBytes (w.length + 1) w

/-- The amended precondition under which the wire → JSON → wire round trip
is the identity: fields appear with strictly increasing field numbers (in
particular no duplicates), every varint (tag, value, length prefix) is
canonically encoded, varint values fit a `float64` exactly (`≤ 2^53`), and
each length-delimited value either recursively satisfies the same
condition when the decoder takes the nested-message interpretation, or is
printable UTF-8 (so the decoder's string interpretation re-encodes it
byte-for-byte, never the lossy hex fallback). -/
def goodWire : Nat → Int → List Nat → Bool
  | _, _, [] => true
  | 0, _, _ :: _ => false
  | fuel + 1, last, d :: ds =>
    match consumeTag (d :: ds) with
    | none => false
    | some (num, wtype, n) =>
      let rest := (d :: ds).drop n
      decide (last < num) &&
      decide ((d :: ds).take n = appendTag num wtype) &&
      (if wtype = 0 then
        match consumeVarint rest with
        | none => false
        | some (v, n2) =>
          decide (v ≤ 2 ^ 53) && decide (rest.take n2 = appendVarint v) &&
          goodWire fuel num (rest.drop n2)
      else if wtype = 2 then
        match consumeBytes rest with
        | none => false
        | some (v, n2) =>
          decide (rest.take n2 = appendBytes v) &&
          (match pwParse (v.length + 1) [] v with
           | some (_ :: _) => goodWire fuel 0 v
           | _ => utf8Valid v && isPrintableBytes v) &&
          goodWire fuel num (rest.drop n2)
      else false)

/-- `goodWire` with enough fuel, starting below every valid field number. -/
def goodWireTop (w : List Nat) : Bool :=
  goodWire (w.length + 1) 0 w

/-- Shape of an upstream response as `Replay` consumes it: trailer and
header `Get` functions. -/
structure ReplayResp where
  trailerGet : String → String
  headerGet : String → String

/-- `ReverseProxy.Replay` from `proxy/reverse_proxy.go`.  The HTTP
round-trip (step 2) and the body read (step 3) are passed in as results;
`eventsChan` is the buffered events channel (capacity `chanCap`, 256 in the
Go constructor) and `newID` the generated UUID.  On success the event is
sent with a non-blocking `select`, and returned either way. -/
def Replay (gunzip : List Nat → Option (List Nat))
    (roundTrip : Except String ReplayResp)
    (readBody : ReplayResp → Except String (List Nat))
    (eventsChan : List Event) (chanCap : Nat)
    (newID : String) (method : String) (body : List Nat) :
    Except String Event × List Event :=
  match roundTrip with
  | .error e => (.error ("replay: roundtrip: " ++ e), eventsChan)
  | .ok resp =>
    match readBody resp with
    | .error e => (.error ("replay: read response: " ++ e), eventsChan)
    | .ok respData =>
      let st := extractGRPCStatus resp.trailerGet resp.headerGet
      let respPayload := ExtractPayload gunzip respData
      let ev : Event :=
        { id := newID, method := method, callType := CallType.unary,
          protocol := Protocol.grpc, status := st.1, errorMsg := st.2,
          requestBody := body, responseBody := respPayload }
      (.ok ev, if eventsChan.length < chanCap then eventsChan ++ [ev] else eventsChan)


/-- A digit character `0`..`9`. -/
def isDigitChar (c : Char) : Bool :=
  decide (48 ≤ c.toNat ∧ c.toNat ≤ 57)

/-- The value of a digit string read left to right from accumulator `n`
(exactly the accumulation `strconv.ParseUint` performs, in unbounded
arithmetic). -/
def digitsValFrom (n : Nat) (cs : List Char) : Nat :=
  cs.foldl (fun m c => m * 10 + (c.toNat - 48)) n

/-- The numeric value of a digit string. -/
def digitsVal (cs : List Char) : Nat :=
  digitsValFrom 0 cs

/-- A concrete event used to instantiate universally quantified theorems. -/
def sampleEvent : Event :=
  { id := "", method := "", callType := CallType.unary,
    protocol := Protocol.grpc, status := 0, errorMsg := "",
    requestBody := [], responseBody := [] }

/-! ## Theorems -/

/-- C5: `DetectCallType` classifies exactly as the specification's table:
for gRPC and gRPC-Web, Unary / ServerStream / ClientStream / BidiStream by
the request and response frame counts (0 when the counter is absent); for
Connect, ServerStream exactly when the content type starts with
`application/connect+proto` or `application/connect+json`, else Unary. -/
theorem detectCallType_spec (p : Protocol) (ct : String) (rf sf : Option Nat) :
    DetectCallType p ct rf sf =
      if p = Protocol.connect then
        (if "application/connect+proto".data <+: ct.data ∨
            "application/connect+json".data <+: ct.data
         then CallType.serverStream else CallType.unary)
      else
        (let r := rf.getD 0
         let s := sf.getD 0
         if r ≤ 1 ∧ s ≤ 1 then CallType.unary
         else if r ≤ 1 ∧ 1 < s then CallType.serverStream
         else if 1 < r ∧ s ≤ 1 then CallType.clientStream
         else CallType.bidiStream) := by
  cases p
  case grpc | grpcWeb =>
    cases rf <;> cases sf <;>
      simp only [DetectCallType, Option.getD, reduceCtorEq, if_false,
        reduceIte] <;>
      split_ifs <;> first | rfl | omega
  case connect =>
    simp only [DetectCallType, reduceIte]
    by_cases hp : ("application/connect+proto".data <+: ct.data ∨
        "application/connect+json".data <+: ct.data)
    · have hlen : 0 < ct.length := by
        have hct : ct.length = ct.data.length := rfl
        rcases hp with ⟨t, ht⟩ | ⟨t, ht⟩ <;>
          · have h' := congrArg List.length ht
            rw [List.length_append] at h'
            rw [hct, ← h']
            have : 0 < ("application/connect+proto".data).length ∧
                0 < ("application/connect+json".data).length := by decide
            omega
      have hguard : (decide (ct.length > 0) &&
          (goHasPre ct "application/connect+proto" ||
           goHasPre ct "application/connect+json")) = true := by
        simp only [goHasPre, Bool.and_eq_true, Bool.or_eq_true,
          decide_eq_true_eq, List.isPrefixOf_iff_prefix, gt_iff_lt]
        exact ⟨hlen, hp⟩
      simp [hguard, hp]
    · have hguard : (decide (ct.length > 0) &&
          (goHasPre ct "application/connect+proto" ||
           goHasPre ct "application/connect+json")) = false := by
        rw [not_or] at hp
        simp only [goHasPre, Bool.and_eq_false_iff, Bool.or_eq_false_iff]
        right
        constructor <;>
          simp only [Bool.eq_false_iff, ne_eq, List.isPrefixOf_iff_prefix] <;>
          [exact hp.1; exact hp.2]
      simp [hguard, hp]


/-! ### FrameCounter lemmas (for C1) -/

theorem scanByte_invFC (fc : FrameCounter) (b : Nat) (h : InvFC fc) :
    InvFC (scanByte fc b) := by
  obtain ⟨h1, h2⟩ := h
  unfold scanByte InvFC
  by_cases hst : fc.st = 0
  · rw [if_pos hst]
    by_cases hfull : 5 ≤ (fc.hdrBuf ++ [b]).length
    · rw [if_pos hfull]
      constructor
      · simp
      · intro hne
        by_cases hrem : 0 < be32 ((fc.hdrBuf ++ [b]).drop 1)
        · exact hrem
        · rw [if_neg hrem] at hne
          exact absurd rfl hne
    · rw [if_neg hfull]
      refine ⟨?_, fun hne => absurd hst hne⟩
      simp only [List.length_append, List.length_cons, List.length_nil] at hfull ⊢
      omega
  · rw [if_neg hst]
    have hrem := h2 hst
    refine ⟨h1, fun hne => ?_⟩
    dsimp only at hne ⊢
    by_cases hz : fc.remain - 1 = 0
    · rw [if_pos hz] at hne
      exact absurd rfl hne
    · omega

theorem foldl_scanByte_invFC (c : List Nat) (fc : FrameCounter) (h : InvFC fc) :
    InvFC (c.foldl scanByte fc) := by
  induction c generalizing fc with
  | nil => exact h
  | cons b bs ih => exact ih _ (scanByte_invFC fc b h)

theorem foldl_scanByte_header (c : List Nat) (fc : FrameCounter)
    (hst : fc.st = 0) (hbuf : fc.hdrBuf.length < 5)
    (hlen : fc.hdrBuf.length + c.length ≤ 5) :
    c.foldl scanByte fc =
      (if 5 ≤ (fc.hdrBuf ++ c).length then
        { count := fc.count + 1,
          st := if 0 < be32 ((fc.hdrBuf ++ c).drop 1) then 1 else 0,
          hdrBuf := [], remain := be32 ((fc.hdrBuf ++ c).drop 1) }
      else { fc with hdrBuf := fc.hdrBuf ++ c }) := by
  induction c generalizing fc with
  | nil =>
    rw [List.foldl_nil, List.append_nil, if_neg (by omega)]
  | cons b bs ih =>
    rw [List.foldl_cons]
    have hb : scanByte fc b =
        (if 5 ≤ (fc.hdrBuf ++ [b]).length then
          { count := fc.count + 1,
            st := if 0 < be32 ((fc.hdrBuf ++ [b]).drop 1) then 1 else 0,
            hdrBuf := [], remain := be32 ((fc.hdrBuf ++ [b]).drop 1) }
        else { fc with hdrBuf := fc.hdrBuf ++ [b] }) := by
      unfold scanByte
      rw [if_pos hst]
    by_cases hfull : 5 ≤ (fc.hdrBuf ++ [b]).length
    · -- the byte completes the header, so bs must be empty
      have hbs : bs = [] := by
        simp only [List.length_append, List.length_cons, List.length_nil] at hfull hlen
        cases bs with
        | nil => rfl
        | cons x xs => simp only [List.length_cons] at hlen; omega
      subst hbs
      rw [List.foldl_nil]
      exact hb
    · rw [hb, if_neg hfull]
      have hst2 : ({ fc with hdrBuf := fc.hdrBuf ++ [b] } : FrameCounter).st = 0 := hst
      have hbuf2 : ({ fc with hdrBuf := fc.hdrBuf ++ [b] } : FrameCounter).hdrBuf.length < 5 := by
        simp only [List.length_append, List.length_cons, List.length_nil] at hfull ⊢
        omega
      have hlen2 : ({ fc with hdrBuf := fc.hdrBuf ++ [b] } : FrameCounter).hdrBuf.length
          + bs.length ≤ 5 := by
        simp only [List.length_append, List.length_cons, List.length_nil] at hlen ⊢
        omega
      rw [ih _ hst2 hbuf2 hlen2]
      simp only [List.append_assoc, List.cons_append, List.nil_append]

theorem foldl_scanByte_payload (c : List Nat) (fc : FrameCounter)
    (hst : fc.st ≠ 0) (hrem : 0 < fc.remain) (hlen : c.length ≤ fc.remain) :
    c.foldl scanByte fc =
      { fc with remain := fc.remain - c.length,
                st := if fc.remain - c.length = 0 then 0 else fc.st } := by
  induction c generalizing fc with
  | nil =>
    rw [List.foldl_nil]
    simp only [List.length_nil, Nat.sub_zero]
    rw [if_neg (by omega)]
  | cons b bs ih =>
    rw [List.foldl_cons]
    have hb : scanByte fc b =
        { fc with remain := fc.remain - 1,
                  st := if fc.remain - 1 = 0 then 0 else fc.st } := by
      unfold scanByte
      rw [if_neg hst]
    rw [hb]
    by_cases hz : fc.remain - 1 = 0
    · have hbs : bs = [] := by
        simp only [List.length_cons] at hlen
        cases bs with
        | nil => rfl
        | cons x xs => simp only [List.length_cons] at hlen; omega
      subst hbs
      rw [List.foldl_nil]
      have hz' : fc.remain - (0 + 1) = 0 := by omega
      simp only [List.length_cons, List.length_nil, hz, hz', reduceIte]
    · rw [if_neg hz]
      have hst2 : ({ fc with remain := fc.remain - 1, st := fc.st } : FrameCounter).st ≠ 0 := hst
      have hrem2 : 0 < ({ fc with remain := fc.remain - 1, st := fc.st } : FrameCounter).remain := by
        dsimp only
        omega
      have hlen2 : bs.length ≤ ({ fc with remain := fc.remain - 1, st := fc.st } : FrameCounter).remain := by
        simp only [List.length_cons] at hlen
        dsimp only
        omega
      rw [ih _ hst2 hrem2 hlen2]
      simp only [List.length_cons]
      rw [show fc.remain - 1 - bs.length = fc.remain - (bs.length + 1) from by omega]

theorem scan_eq_foldl (data : List Nat) (fc : FrameCounter) (h : InvFC fc) :
    scan fc data = data.foldl scanByte fc := by
  have H : ∀ n (data : List Nat) (fc : FrameCounter), data.length ≤ n →
      InvFC fc → scan fc data = data.foldl scanByte fc := by
    intro n
    induction n with
    | zero =>
      intro data fc hlen _
      have hd : data = [] := List.length_eq_zero.mp (by omega)
      subst hd
      rw [scan, List.foldl_nil]
    | succ n ih =>
      intro data fc hlen hinv
      obtain ⟨hbuf, hrem⟩ := hinv
      match data with
      | [] => rw [scan, List.foldl_nil]
      | d :: ds =>
        rw [scan]
        dsimp only
        by_cases hst : fc.st = 0
        · rw [if_pos hst]
          by_cases hc : (d :: ds).length < 5 - fc.hdrBuf.length
          · -- whole chunk fits in the header buffer and leaves it short
            rw [if_pos hc]
            have htake : (d :: ds).take (d :: ds).length = d :: ds := by
              simp
            have hshort : ¬ 5 ≤ (fc.hdrBuf ++ (d :: ds).take (d :: ds).length).length := by
              rw [htake]
              simp only [List.length_append, List.length_cons]
              simp only [List.length_cons] at hc
              omega
            rw [if_neg hshort]
            have hdrop : (d :: ds).drop (d :: ds).length = [] := by simp
            rw [hdrop, scan]
            rw [foldl_scanByte_header (d :: ds) fc hst hbuf (by omega),
              if_neg (by rwa [htake] at hshort), htake]
          · rw [if_neg hc]
            have hneedpos : 1 ≤ 5 - fc.hdrBuf.length := by omega
            have hneedle : 5 - fc.hdrBuf.length ≤ (d :: ds).length := by omega
            have hfull : 5 ≤ (fc.hdrBuf ++ (d :: ds).take (5 - fc.hdrBuf.length)).length := by
              simp only [List.length_append, List.length_take]
              omega
            rw [if_pos hfull]
            have hsplit : (d :: ds).foldl scanByte fc =
                ((d :: ds).drop (5 - fc.hdrBuf.length)).foldl scanByte
                  (((d :: ds).take (5 - fc.hdrBuf.length)).foldl scanByte fc) := by
              rw [← List.foldl_append, List.take_append_drop]
            rw [hsplit]
            rw [foldl_scanByte_header ((d :: ds).take (5 - fc.hdrBuf.length)) fc hst hbuf
              (by simp only [List.length_take]; omega)]
            rw [if_pos hfull]
            apply ih
            · simp only [List.length_drop, List.length_cons] at hlen ⊢
              omega
            · constructor
              · simp
              · intro hne
                by_cases hb : 0 < be32 ((fc.hdrBuf ++ (d :: ds).take (5 - fc.hdrBuf.length)).drop 1)
                · exact hb
                · rw [if_neg hb] at hne
                  exact absurd rfl hne
        · rw [if_neg hst]
          have hrempos := hrem hst
          by_cases hc : fc.remain < (d :: ds).length
          · rw [if_pos hc]
            have hsplit : (d :: ds).foldl scanByte fc =
                ((d :: ds).drop fc.remain).foldl scanByte
                  (((d :: ds).take fc.remain).foldl scanByte fc) := by
              rw [← List.foldl_append, List.take_append_drop]
            rw [hsplit]
            rw [foldl_scanByte_payload ((d :: ds).take fc.remain) fc hst hrempos
              (by simp only [List.length_take]; omega)]
            have htk : ((d :: ds).take fc.remain).length = fc.remain := by
              simp only [List.length_take]; omega
            rw [htk, Nat.sub_self, if_pos rfl]
            apply ih
            · simp only [List.length_drop, List.length_cons] at hlen ⊢
              omega
            · exact ⟨hbuf, fun hne => absurd rfl hne⟩
          · rw [if_neg hc]
            have hdle : (d :: ds).length ≤ fc.remain := by omega
            have hdrop : (d :: ds).drop (d :: ds).length = [] := by simp
            rw [hdrop, scan]
            rw [foldl_scanByte_payload (d :: ds) fc hst hrempos hdle]
  exact H data.length data fc (le_refl _) h


theorem be32_beBytes32 (n : Nat) (h : n < 2 ^ 32) : be32 (beBytes32 n) = n := by
  simp only [beBytes32, be32]
  omega

theorem foldl_scanByte_frame (flags : Nat) (p : List Nat)
    (hp : p.length < 2 ^ 32) (cnt rem0 : Nat) :
    List.foldl scanByte ⟨cnt, 0, [], rem0⟩ (encodeFrame flags p) =
      ⟨cnt + 1, 0, [], 0⟩ := by
  have hsplit : encodeFrame flags p = (flags :: beBytes32 p.length) ++ p := by
    simp [encodeFrame]
  rw [hsplit, List.foldl_append]
  have hlen5 : (flags :: beBytes32 p.length).length = 5 := by
    simp [beBytes32]
  rw [foldl_scanByte_header (flags :: beBytes32 p.length) ⟨cnt, 0, [], rem0⟩ rfl
    (by simp) (by rw [hlen5]; simp)]
  rw [if_pos (by simp only [List.nil_append]; omega)]
  have hdrop : ((⟨cnt, 0, [], rem0⟩ : FrameCounter).hdrBuf ++
      (flags :: beBytes32 p.length)).drop 1 = beBytes32 p.length := by
    simp
  rw [hdrop, be32_beBytes32 p.length hp]
  cases hp0 : p with
  | nil =>
    simp
  | cons x xs =>
    have hplen : 0 < p.length := by rw [hp0]; simp
    rw [← hp0]
    rw [if_pos hplen]
    rw [foldl_scanByte_payload p ⟨cnt + 1, 1, [], p.length⟩ (by simp) hplen (le_refl _)]
    simp

theorem foldl_scanByte_frames (frames : List (Nat × List Nat))
    (hf : ∀ f ∈ frames, f.2.length < 2 ^ 32) (cnt : Nat) :
    List.foldl scanByte ⟨cnt, 0, [], 0⟩ (encodeFrames frames) =
      ⟨cnt + frames.length, 0, [], 0⟩ := by
  induction frames generalizing cnt with
  | nil => simp [encodeFrames]
  | cons f fs ih =>
    have hsplit : encodeFrames (f :: fs) = encodeFrame f.1 f.2 ++ encodeFrames fs := by
      simp [encodeFrames]
    rw [hsplit, List.foldl_append]
    rw [foldl_scanByte_frame f.1 f.2 (hf f (by simp)) cnt 0]
    rw [ih (fun g hg => hf g (by simp [hg])) (cnt + 1)]
    simp only [List.length_cons]
    rw [show cnt + 1 + fs.length = cnt + (fs.length + 1) from by omega]

theorem scanChunks_eq (chunks : List (List Nat)) (fc : FrameCounter)
    (h : InvFC fc) :
    scanChunks fc chunks = chunks.flatten.foldl scanByte fc := by
  induction chunks generalizing fc with
  | nil => rfl
  | cons c cs ih =>
    have h1 : scanChunks fc (c :: cs) = scanChunks (scan fc c) cs := rfl
    rw [h1, scan_eq_foldl c fc h]
    rw [ih _ (foldl_scanByte_invFC c fc h)]
    rw [List.flatten_cons, List.foldl_append]

/-- C1: for every byte stream that is a concatenation of valid gRPC
length-prefixed frames (1 flags byte, 4-byte big-endian length, payload of
exactly that length; zero-length payloads allowed) and every way of
splitting the stream into read chunks — including single-byte chunks and
chunks straddling a header boundary — after `FrameCounter` has scanned all
chunks its `Count` equals the number of frames. -/
theorem frameCounter_counts_frames (frames : List (Nat × List Nat))
    (hlen : ∀ f ∈ frames, f.2.length < 2 ^ 32)
    (chunks : List (List Nat))
    (hchunks : chunks.flatten = encodeFrames frames) :
    (scanChunks initFrameCounter chunks).count = frames.length := by
  have hinv : InvFC initFrameCounter := ⟨by simp [initFrameCounter], by simp [initFrameCounter]⟩
  rw [scanChunks_eq chunks initFrameCounter hinv, hchunks]
  rw [show initFrameCounter = ⟨0, 0, [], 0⟩ from rfl]
  rw [foldl_scanByte_frames frames hlen 0]
  simp

/-- Witness for `frameCounter_counts_frames`: two frames — payload `[65]`
and a zero-length payload — chunked so that reads straddle both header
boundaries. -/
theorem frameCounter_counts_frames_witness :
    (scanChunks initFrameCounter
      [[0], [0, 0], [0, 1], [65, 0], [0, 0, 0, 0]]).count = 2 :=
  frameCounter_counts_frames [(0, [65]), (0, [])] (by decide)
    [[0], [0, 0], [0, 1], [65, 0], [0, 0, 0, 0]] (by decide)



/-! ### CaptureReader lemmas (for C2) -/

theorem captureScan_take (n : Nat) (buf c : List Nat) (h : buf.length ≤ n) :
    captureScan n buf c = (buf ++ c).take n := by
  unfold captureScan
  dsimp only
  rw [List.take_append_eq_append_take,
    List.take_of_length_le h]
  by_cases hg : 0 < n - buf.length ∧ 0 < c.length
  · rw [if_pos hg]
    congr 1
    by_cases hc : n - buf.length < c.length
    · rw [if_pos hc]
    · rw [if_neg hc]
      rw [List.take_of_length_le (by omega), List.take_of_length_le (by omega)]
  · rw [if_neg hg]
    rw [not_and_or] at hg
    rcases hg with hg | hg
    · have h0 : n - buf.length = 0 := by omega
      rw [h0]
      simp
    · have h0 : c = [] := by
        cases c with
        | nil => rfl
        | cons x xs => simp at hg
      subst h0
      simp

theorem take_append_take (n : Nat) (x y : List Nat) :
    (x.take n ++ y).take n = (x ++ y).take n := by
  rw [List.take_append_eq_append_take, List.take_append_eq_append_take,
    List.take_take, min_self]
  congr 2
  simp only [List.length_take]
  omega

theorem foldl_captureScan (n : Nat) (chunks : List (List Nat)) (buf : List Nat)
    (h : buf.length ≤ n) :
    chunks.foldl (captureScan n) buf = (buf ++ chunks.flatten).take n := by
  induction chunks generalizing buf with
  | nil =>
    simp only [List.foldl_nil, List.flatten_nil, List.append_nil]
    rw [List.take_of_length_le h]
  | cons c cs ih =>
    rw [List.foldl_cons, captureScan_take n buf c h]
    rw [ih _ (by simp only [List.length_take]; omega)]
    rw [List.flatten_cons, take_append_take, List.append_assoc]

/-- C2: for every underlying stream, every cap `N` and every chunking of
the stream, draining it through `CaptureReader` (i) passes each underlying
read's bytes and error through to the caller unchanged, and (ii) leaves in
the capture buffer exactly the first `min(N, totalBytes)` bytes of the
stream. -/
theorem captureReader_spec :
    (∀ (cr : CaptureReader) (chunk : List Nat) (e : Option String),
      (cr.read chunk e).1 = (chunk, e)) ∧
    (∀ (n : Nat) (chunks : List (List Nat)),
      chunks.foldl (captureScan n) [] = chunks.flatten.take n ∧
      (chunks.foldl (captureScan n) []).length = min n chunks.flatten.length) := by
  constructor
  · intro cr chunk e
    rfl
  · intro n chunks
    have h := foldl_captureScan n chunks [] (by simp)
    simp only [List.nil_append] at h
    exact ⟨h, by rw [h, List.length_take]⟩



/-! ### Broker and Replay (C8, C9) -/

/-- C8: `Broker.Publish` appends the event to every subscriber whose buffer
holds fewer than `bufSize` elements and leaves full subscribers' buffers
unchanged (the event is dropped for them alone), affecting no other
subscriber and removing none; in particular with one subscriber of
capacity 1 and two consecutive publishes with no receive in between, the
subscriber receives the first event, the next receive returns nothing, and
the second event is dropped. -/
theorem broker_publish_spec :
    (∀ (b : Broker) (ev : Event) (id : Nat) (q : List Event),
      (id, q) ∈ b.subscribers →
        (q.length < b.bufSize → (id, q ++ [ev]) ∈ (b.publish ev).subscribers) ∧
        (¬ q.length < b.bufSize → (id, q) ∈ (b.publish ev).subscribers)) ∧
    (∀ (b : Broker) (ev : Event),
      (b.publish ev).subscribers.length = b.subscribers.length) ∧
    (∀ ev1 ev2 : Event,
      ((((Broker.new 1).subscribe.1.publish ev1).publish ev2).receive
          ((Broker.new 1).subscribe.2)).1 = some ev1 ∧
      (((((Broker.new 1).subscribe.1.publish ev1).publish ev2).receive
          ((Broker.new 1).subscribe.2)).2.receive
          ((Broker.new 1).subscribe.2)).1 = none) := by
  refine ⟨?_, ?_, ?_⟩
  · intro b ev id q hmem
    constructor
    · intro hlt
      have h := List.mem_map_of_mem
        (fun s : Nat × List Event =>
          if s.2.length < b.bufSize then (s.1, s.2 ++ [ev]) else s) hmem
      dsimp only at h
      rw [if_pos hlt] at h
      simpa [Broker.publish] using h
    · intro hge
      have h := List.mem_map_of_mem
        (fun s : Nat × List Event =>
          if s.2.length < b.bufSize then (s.1, s.2 ++ [ev]) else s) hmem
      dsimp only at h
      rw [if_neg hge] at h
      simpa [Broker.publish] using h
  · intro b ev
    exact List.length_map _ _
  · intro ev1 ev2
    exact ⟨rfl, rfl⟩

/-- Witness for `broker_publish_spec` at a concrete broker and event. -/
theorem broker_publish_spec_witness :
    (0, [sampleEvent]) ∈
      ((⟨[(0, [])], 1, 1⟩ : Broker).publish sampleEvent).subscribers := by
  have h := (broker_publish_spec.1 (⟨[(0, [])], 1, 1⟩ : Broker) sampleEvent 0 []
    (by simp)).1
  exact h (by simp)

/-- C9: when the upstream round trip (step 2) or the response-body read
(step 3) fails, `Replay` returns an error and publishes nothing to the
events channel; on success it returns an event with protocol gRPC, call
type Unary, and `request_body` equal to the raw (unframed) input payload. -/
theorem replay_spec (gunzip : List Nat → Option (List Nat))
    (rt : Except String ReplayResp)
    (rb : ReplayResp → Except String (List Nat))
    (events : List Event) (chanCap : Nat)
    (newID method : String) (body : List Nat) :
    (∀ e, rt = .error e →
      Replay gunzip rt rb events chanCap newID method body =
        (.error ("replay: roundtrip: " ++ e), events)) ∧
    (∀ resp e, rt = .ok resp → rb resp = .error e →
      Replay gunzip rt rb events chanCap newID method body =
        (.error ("replay: read response: " ++ e), events)) ∧
    (∀ resp respData, rt = .ok resp → rb resp = .ok respData →
      ∃ ev, (Replay gunzip rt rb events chanCap newID method body).1 = .ok ev ∧
        ev.protocol = Protocol.grpc ∧ ev.callType = CallType.unary ∧
        ev.requestBody = body) := by
  refine ⟨?_, ?_, ?_⟩
  · intro e he
    subst he
    rfl
  · intro resp e hrt hrb
    subst hrt
    unfold Replay
    dsimp only
    rw [hrb]
  · intro resp respData hrt hrb
    subst hrt
    unfold Replay
    dsimp only
    rw [hrb]
    exact ⟨_, rfl, rfl, rfl, rfl⟩

/-- Witness for `replay_spec`: a failing round trip returns the error and
leaves the events channel untouched, and a successful one produces a gRPC
unary event carrying the raw payload. -/
theorem replay_spec_witness :
    Replay (fun _ => none) (.error "boom") (fun _ => .ok []) [] 256 "id"
        "/svc/M" [1, 2] = (.error "replay: roundtrip: boom", []) ∧
    ∃ ev, (Replay (fun _ => none)
        (.ok ⟨fun _ => "", fun _ => ""⟩) (fun _ => .ok []) [] 256 "id"
        "/svc/M" [1, 2]).1 = .ok ev ∧
      ev.protocol = Protocol.grpc ∧ ev.callType = CallType.unary ∧
      ev.requestBody = [1, 2] := by
  constructor
  · exact (replay_spec (fun _ => none) (.error "boom") (fun _ => .ok []) [] 256
      "id" "/svc/M" [1, 2]).1 "boom" rfl
  · exact (replay_spec (fun _ => none) (.ok ⟨fun _ => "", fun _ => ""⟩)
      (fun _ => .ok []) [] 256 "id" "/svc/M" [1, 2]).2.2
      ⟨fun _ => "", fun _ => ""⟩ [] rfl rfl



/-! ### strconv.ParseInt lemmas (for C6) -/

theorem digitsValFrom_ge (cs : List Char) (n : Nat) : n ≤ digitsValFrom n cs := by
  induction cs generalizing n with
  | nil => exact le_refl n
  | cons c rest ih =>
    have h := ih (n * 10 + (c.toNat - 48))
    unfold digitsValFrom at h ⊢
    rw [List.foldl_cons]
    omega

theorem digitsValFrom_cons (c : Char) (rest : List Char) (n : Nat) :
    digitsValFrom n (c :: rest) = digitsValFrom (n * 10 + (c.toNat - 48)) rest := by
  unfold digitsValFrom
  rw [List.foldl_cons]

theorem parseUintLoop_ok (cs : List Char) (n : Nat)
    (hd : cs.all isDigitChar = true)
    (hb : digitsValFrom n cs ≤ 18446744073709551615) :
    parseUintLoop cs n = (digitsValFrom n cs, none) := by
  induction cs generalizing n with
  | nil => rfl
  | cons c rest ih =>
    rw [List.all_cons, Bool.and_eq_true] at hd
    have hdig : 48 ≤ c.toNat ∧ c.toNat ≤ 57 := by
      have := hd.1
      unfold isDigitChar at this
      exact of_decide_eq_true this
    rw [digitsValFrom_cons] at hb ⊢
    have hge := digitsValFrom_ge rest (n * 10 + (c.toNat - 48))
    unfold parseUintLoop
    rw [if_pos hdig, if_neg (by omega), if_neg (by omega)]
    exact ih _ hd.2 hb

theorem parseUintLoop_overflow (cs : List Char) (n : Nat)
    (hd : cs.all isDigitChar = true) (hn : n ≤ 18446744073709551615)
    (hb : 18446744073709551615 < digitsValFrom n cs) :
    parseUintLoop cs n = (18446744073709551615, some GoNumErr.outOfRange) := by
  induction cs generalizing n with
  | nil =>
    exfalso
    unfold digitsValFrom at hb
    rw [List.foldl_nil] at hb
    omega
  | cons c rest ih =>
    rw [List.all_cons, Bool.and_eq_true] at hd
    have hdig : 48 ≤ c.toNat ∧ c.toNat ≤ 57 := by
      have := hd.1
      unfold isDigitChar at this
      exact of_decide_eq_true this
    rw [digitsValFrom_cons] at hb
    unfold parseUintLoop
    rw [if_pos hdig]
    by_cases hcut : 1844674407370955162 ≤ n
    · rw [if_pos hcut]
    · rw [if_neg hcut]
      by_cases hov : 18446744073709551615 < n * 10 + (c.toNat - 48)
      · rw [if_pos hov]
      · rw [if_neg hov]
        exact ih _ hd.2 (by omega) hb

theorem parseUintLoop_badchar (pre : List Char) (c : Char) (rest : List Char)
    (n : Nat) (hd : pre.all isDigitChar = true) (hc : isDigitChar c = false)
    (hb : digitsValFrom n pre < 1844674407370955162) :
    parseUintLoop (pre ++ c :: rest) n = (0, some GoNumErr.badSyn) := by
  induction pre generalizing n with
  | nil =>
    rw [List.nil_append]
    unfold parseUintLoop
    rw [if_neg]
    intro hdig
    unfold isDigitChar at hc
    rw [decide_eq_false_iff_not] at hc
    exact hc hdig
  | cons p ps ih =>
    rw [List.all_cons, Bool.and_eq_true] at hd
    have hdig : 48 ≤ p.toNat ∧ p.toNat ≤ 57 := by
      have := hd.1
      unfold isDigitChar at this
      exact of_decide_eq_true this
    rw [digitsValFrom_cons] at hb
    have hge := digitsValFrom_ge ps (n * 10 + (p.toNat - 48))
    rw [List.cons_append]
    unfold parseUintLoop
    rw [if_pos hdig, if_neg (by omega), if_neg (by omega)]
    exact ih _ hd.2 hb



theorem parseIntGo32_digits (neg : Bool) (ds : List Char) (hne : ds ≠ [])
    (hd : ds.all isDigitChar = true) :
    parseIntGo 32 ⟨if neg then '-' :: ds else ds⟩ =
      if neg then -((min (digitsVal ds) (2 ^ 31) : Nat) : Int)
      else ((min (digitsVal ds) (2 ^ 31 - 1) : Nat) : Int) := by
  obtain ⟨c0, rest0, rfl⟩ : ∃ c0 rest0, ds = c0 :: rest0 := by
    cases ds with
    | nil => exact absurd rfl hne
    | cons a b => exact ⟨a, b, rfl⟩
  have hdig0 : 48 ≤ c0.toNat ∧ c0.toNat ≤ 57 := by
    rw [List.all_cons, Bool.and_eq_true] at hd
    have := hd.1
    unfold isDigitChar at this
    exact of_decide_eq_true this
  have hU : parseUint64 (c0 :: rest0) =
      if digitsVal (c0 :: rest0) ≤ 18446744073709551615 then
        (digitsVal (c0 :: rest0), none)
      else (18446744073709551615, some GoNumErr.outOfRange) := by
    unfold parseUint64
    rw [if_neg (by simp)]
    by_cases hov : digitsVal (c0 :: rest0) ≤ 18446744073709551615
    · rw [if_pos hov]
      exact parseUintLoop_ok _ _ hd hov
    · rw [if_neg hov]
      refine parseUintLoop_overflow _ _ hd (by omega) ?_
      unfold digitsVal at hov
      omega
  cases neg with
  | false =>
    simp only [Bool.false_eq_true, if_false, reduceIte]
    unfold parseIntGo parseIntGoE
    dsimp only
    rw [if_neg (by omega)]
    by_cases hov : digitsVal (c0 :: rest0) ≤ 18446744073709551615
    · rw [hU, if_pos hov]
      dsimp only
      by_cases hbig : 2 ^ (32 - 1) ≤ digitsVal (c0 :: rest0)
      · rw [if_pos ⟨by omega, hbig⟩]
        dsimp only
        have hmin : min (digitsVal (c0 :: rest0)) (2 ^ 31 - 1) = 2 ^ 31 - 1 := by
          have h2 : (2 : Nat) ^ (32 - 1) = 2 ^ 31 := by norm_num
          omega
        rw [hmin]
        push_cast
      · rw [if_neg (by intro h; exact hbig h.2), if_neg (by intro h; omega)]
        dsimp only
        rw [if_neg (by omega)]
        have hmin : min (digitsVal (c0 :: rest0)) (2 ^ 31 - 1) = digitsVal (c0 :: rest0) := by
          have h2 : (2 : Nat) ^ (32 - 1) = 2 ^ 31 := by norm_num
          omega
        rw [hmin]
    · rw [hU, if_neg hov]
      dsimp only
      rw [if_pos ⟨by omega, by norm_num⟩]
      dsimp only
      have hmin : min (digitsVal (c0 :: rest0)) (2 ^ 31 - 1) = 2 ^ 31 - 1 := by omega
      rw [hmin]
      push_cast
  | true =>
    simp only [if_true, reduceIte]
    unfold parseIntGo parseIntGoE
    dsimp only
    rw [if_pos (by right; rfl)]
    by_cases hov : digitsVal (c0 :: rest0) ≤ 18446744073709551615
    · rw [hU, if_pos hov]
      dsimp only
      rw [if_neg (by intro h; exact h.1 rfl)]
      by_cases hbig : 2 ^ (32 - 1) < digitsVal (c0 :: rest0)
      · rw [if_pos ⟨rfl, hbig⟩]
        dsimp only
        have hmin : min (digitsVal (c0 :: rest0)) (2 ^ 31) = 2 ^ 31 := by
          have h2 : (2 : Nat) ^ (32 - 1) = 2 ^ 31 := by norm_num
          omega
        rw [hmin]
      · rw [if_neg (by intro h; exact hbig h.2)]
        dsimp only
        rw [if_pos (show ('-'.toNat = 45) from rfl)]
        have hmin : min (digitsVal (c0 :: rest0)) (2 ^ 31) = digitsVal (c0 :: rest0) := by
          have h2 : (2 : Nat) ^ (32 - 1) = 2 ^ 31 := by norm_num
          omega
        rw [hmin]
    · rw [hU, if_neg hov]
      dsimp only
      rw [if_neg (by intro h; exact h.1 rfl), if_pos ⟨rfl, by norm_num⟩]
      dsimp only
      have hmin : min (digitsVal (c0 :: rest0)) (2 ^ 31) = 2 ^ 31 := by omega
      rw [hmin]

theorem parseIntGo32_malformed (pre : List Char) (c : Char) (rest : List Char)
    (hd : pre.all isDigitChar = true) (hc : isDigitChar c = false)
    (hsign : pre = [] → c.toNat ≠ 43 ∧ c.toNat ≠ 45)
    (hb : digitsVal pre < 1844674407370955162) :
    parseIntGo 32 ⟨pre ++ c :: rest⟩ = 0 := by
  cases pre with
  | nil =>
    obtain ⟨h43, h45⟩ := hsign rfl
    unfold parseIntGo parseIntGoE
    rw [List.nil_append]
    dsimp only
    rw [if_neg (by intro h; rcases h with h | h; exact h43 h; exact h45 h)]
    have hL : parseUint64 (c :: rest) = (0, some GoNumErr.badSyn) := by
      unfold parseUint64
      rw [if_neg (by simp)]
      exact parseUintLoop_badchar [] c rest 0 rfl hc (by simp [digitsValFrom])
    rw [hL]
  | cons p ps =>
    have hdigp : 48 ≤ p.toNat ∧ p.toNat ≤ 57 := by
      rw [List.all_cons, Bool.and_eq_true] at hd
      have := hd.1
      unfold isDigitChar at this
      exact of_decide_eq_true this
    unfold parseIntGo parseIntGoE
    rw [List.cons_append]
    dsimp only
    rw [if_neg (by omega)]
    have hL : parseUint64 (p :: (ps ++ c :: rest)) = (0, some GoNumErr.badSyn) := by
      unfold parseUint64
      rw [if_neg (by simp)]
      rw [show p :: (ps ++ c :: rest) = (p :: ps) ++ c :: rest from rfl]
      exact parseUintLoop_badchar (p :: ps) c rest 0 hd hc hb
    rw [hL]



/-- C6 (amended): the gRPC status extractor takes `Grpc-Status` from the
trailers first and only when absent there from the headers, reading
`Grpc-Message` from the same location, and returns (0, "") when both are
absent; the value is parsed by `strconv.ParseInt(s, 10, 32)` with the
error discarded, so an all-digit value (optionally signed) is clamped into
the `int32` range — out-of-range values yield 2147483647 / -2147483648,
not 0 — while a value with a non-digit character yields 0 (provided the
digit run before it does not overflow 64 bits, in which case Go reports
the range error first and the clamped value is kept). -/
theorem grpc_status_amended :
    (∀ tg hg : String → String, tg "Grpc-Status" = "" → hg "Grpc-Status" = "" →
      extractGRPCStatus tg hg = (0, "")) ∧
    (∀ tg hg : String → String, tg "Grpc-Status" ≠ "" →
      extractGRPCStatus tg hg =
        (parseIntGo 32 (tg "Grpc-Status"), tg "Grpc-Message")) ∧
    (∀ tg hg : String → String, tg "Grpc-Status" = "" → hg "Grpc-Status" ≠ "" →
      extractGRPCStatus tg hg =
        (parseIntGo 32 (hg "Grpc-Status"), hg "Grpc-Message")) ∧
    (∀ (neg : Bool) (ds : List Char), ds ≠ [] → ds.all isDigitChar = true →
      parseIntGo 32 ⟨if neg then '-' :: ds else ds⟩ =
        if neg then -((min (digitsVal ds) (2 ^ 31) : Nat) : Int)
        else ((min (digitsVal ds) (2 ^ 31 - 1) : Nat) : Int)) ∧
    (∀ (pre : List Char) (c : Char) (rest : List Char),
      pre.all isDigitChar = true → isDigitChar c = false →
      (pre = [] → c.toNat ≠ 43 ∧ c.toNat ≠ 45) →
      digitsVal pre < 1844674407370955162 →
      parseIntGo 32 ⟨pre ++ c :: rest⟩ = 0) := by
  refine ⟨?_, ?_, ?_, parseIntGo32_digits, parseIntGo32_malformed⟩
  · intro tg hg h1 h2
    unfold extractGRPCStatus
    rw [if_neg (by simp [h1]), if_neg (by simp [h2])]
  · intro tg hg h1
    unfold extractGRPCStatus
    rw [if_pos (by simpa using h1)]
  · intro tg hg h1 h2
    unfold extractGRPCStatus
    rw [if_neg (by simp [h1]), if_pos (by simpa using h2)]

/-- Witness for `grpc_status_amended`: no status at all yields (0, "");
the malformed value "12a" parses to 0; the out-of-range value
"2147483648" is clamped, not zeroed. -/
theorem grpc_status_amended_witness :
    extractGRPCStatus (fun _ => "") (fun _ => "") = (0, "") ∧
    parseIntGo 32 "12a" = 0 ∧
    parseIntGo 32 "2147483648" =
      ((min (digitsVal "2147483648".data) (2 ^ 31 - 1) : Nat) : Int) := by
  refine ⟨?_, ?_, ?_⟩
  · exact grpc_status_amended.1 (fun _ => "") (fun _ => "") rfl rfl
  · exact grpc_status_amended.2.2.2.2 ['1', '2'] 'a' [] (by decide) (by decide)
      (fun hh => absurd hh (by decide)) (by decide)
  · exact grpc_status_amended.2.2.2.1 false "2147483648".data (by decide) (by decide)



/-! ### Wire-codec lemmas (for C4) -/

theorem cvLoop_bounds (b : List Nat) : ∀ (i acc v n : Nat),
    cvLoop b i acc = some (v, n) → i < n ∧ n ≤ i + b.length := by
  induction b with
  | nil => intro i acc v n h; exact absurd h (by simp [cvLoop])
  | cons x rest ih =>
    intro i acc v n h
    unfold cvLoop at h
    by_cases h9 : i = 9
    · rw [if_pos h9] at h
      by_cases h2 : x < 2
      · rw [if_pos h2] at h
        simp only [Option.some_inj, Prod.mk.injEq] at h
        simp only [List.length_cons]
        omega
      · rw [if_neg h2] at h
        exact absurd h (by simp)
    · rw [if_neg h9] at h
      by_cases hx : x < 128
      · rw [if_pos hx] at h
        simp only [Option.some_inj, Prod.mk.injEq] at h
        simp only [List.length_cons]
        omega
      · rw [if_neg hx] at h
        have := ih (i + 1) (acc + (x - 128) * 2 ^ (7 * i)) v n h
        simp only [List.length_cons]
        omega

theorem consumeVarint_bounds (b : List Nat) (v n : Nat)
    (h : consumeVarint b = some (v, n)) : 1 ≤ n ∧ n ≤ b.length := by
  have := cvLoop_bounds b 0 0 v n h
  omega

theorem consumeTag_bounds (b : List Nat) (num : Int) (w n : Nat)
    (h : consumeTag b = some (num, w, n)) :
    1 ≤ n ∧ n ≤ b.length ∧ 1 ≤ num ∧ num < 2 ^ 31 := by
  unfold consumeTag at h
  rcases hv : consumeVarint b with _ | ⟨v, nv⟩
  · rw [hv] at h; exact absurd h (by simp)
  · rw [hv] at h
    dsimp only at h
    by_cases hlt : toInt32 (v >>> 3) < 1
    · rw [if_pos hlt] at h; exact absurd h (by simp)
    · rw [if_neg hlt] at h
      simp only [Option.some_inj, Prod.mk.injEq] at h
      obtain ⟨h1, _, h3⟩ := h
      subst h1 h3
      have hb := consumeVarint_bounds b v nv hv
      refine ⟨hb.1, hb.2, by omega, ?_⟩
      unfold toInt32
      dsimp only
      split_ifs with hsm
      · exact_mod_cast hsm
      · have : ((v >>> 3) % 2 ^ 32 : Nat) < 2 ^ 32 := Nat.mod_lt _ (by norm_num)
        push_cast
        omega

theorem consumeBytes_bounds (b : List Nat) (v : List Nat) (n2 : Nat)
    (h : consumeBytes b = some (v, n2)) :
    1 ≤ n2 ∧ n2 ≤ b.length ∧ v.length < n2 := by
  unfold consumeBytes at h
  rcases hv : consumeVarint b with _ | ⟨m, nv⟩
  · rw [hv] at h; exact absurd h (by simp)
  · rw [hv] at h
    dsimp only at h
    by_cases hlen : (b.drop nv).length < m
    · rw [if_pos hlen] at h; exact absurd h (by simp)
    · rw [if_neg hlen] at h
      simp only [Option.some_inj, Prod.mk.injEq] at h
      obtain ⟨h1, h2⟩ := h
      subst h2
      have hb := consumeVarint_bounds b m nv hv
      rw [List.length_drop] at hlen
      have hvl : v.length = m := by
        rw [← h1, List.length_take_of_le (by rw [List.length_drop]; omega)]
      omega



theorem pwParse_fuel : ∀ (k : Nat) (d : List Nat) (f1 f2 : Nat)
    (m : List (String × GoVal)), d.length ≤ k → d.length < f1 →
    d.length < f2 → pwParse f1 m d = pwParse f2 m d := by
  intro k
  induction k with
  | zero =>
    intro d f1 f2 m hk h1 h2
    have hd : d = [] := List.length_eq_zero.mp (by omega)
    subst hd
    cases f1 with
    | zero => omega
    | succ g1 =>
      cases f2 with
      | zero => omega
      | succ g2 => rfl
  | succ k ih =>
    intro d f1 f2 m hk h1 h2
    match d with
    | [] =>
      cases f1 with
      | zero => omega
      | succ g1 =>
        cases f2 with
        | zero => omega
        | succ g2 => rfl
    | x :: xs =>
      cases f1 with
      | zero => simp at h1
      | succ g1 =>
        cases f2 with
        | zero => simp at h2
        | succ g2 =>
          simp only [List.length_cons] at h1 h2 hk
          rw [pwParse, pwParse]
          rcases hT : consumeTag (x :: xs) with _ | ⟨num, wtype, n⟩
          · rfl
          · dsimp only
            have hTb := consumeTag_bounds (x :: xs) num wtype n hT
            simp only [List.length_cons] at hTb
            have hrest : ((x :: xs).drop n).length = xs.length + 1 - n := by
              rw [List.length_drop, List.length_cons]
            by_cases hw0 : wtype = 0
            · rw [if_pos hw0, if_pos hw0]
              rcases hV : consumeVarint ((x :: xs).drop n) with _ | ⟨v, n2⟩
              · rfl
              · dsimp only
                apply ih
                · simp only [List.length_drop, List.length_cons]
                  omega
                · simp only [List.length_drop, List.length_cons]
                  omega
                · simp only [List.length_drop, List.length_cons]
                  omega
            · rw [if_neg hw0, if_neg hw0]
              by_cases hw5 : wtype = 5
              · rw [if_pos hw5, if_pos hw5]
                rcases hV : consumeFixed32 ((x :: xs).drop n) with _ | ⟨v, n2⟩
                · rfl
                · dsimp only
                  apply ih
                  · simp only [List.length_drop, List.length_cons]; omega
                  · simp only [List.length_drop, List.length_cons]; omega
                  · simp only [List.length_drop, List.length_cons]; omega
              · rw [if_neg hw5, if_neg hw5]
                by_cases hw1 : wtype = 1
                · rw [if_pos hw1, if_pos hw1]
                  rcases hV : consumeFixed64 ((x :: xs).drop n) with _ | ⟨v, n2⟩
                  · rfl
                  · dsimp only
                    apply ih
                    · simp only [List.length_drop, List.length_cons]; omega
                    · simp only [List.length_drop, List.length_cons]; omega
                    · simp only [List.length_drop, List.length_cons]; omega
                · rw [if_neg hw1, if_neg hw1]
                  by_cases hw2 : wtype = 2
                  · rw [if_pos hw2, if_pos hw2]
                    rcases hV : consumeBytes ((x :: xs).drop n) with _ | ⟨v, n2⟩
                    · rfl
                    · dsimp only
                      have hVb := consumeBytes_bounds _ _ _ hV
                      rw [hrest] at hVb
                      have hnest : pwParse g1 [] v = pwParse g2 [] v := by
                        apply ih
                        · omega
                        · omega
                        · omega
                      rw [hnest]
                      apply ih
                      · simp only [List.length_drop, List.length_cons]; omega
                      · simp only [List.length_drop, List.length_cons]; omega
                      · simp only [List.length_drop, List.length_cons]; omega
                  · rw [if_neg hw2, if_neg hw2]

theorem goodWire_fuel : ∀ (k : Nat) (d : List Nat) (f1 f2 : Nat) (last : Int),
    d.length ≤ k → d.length < f1 → d.length < f2 →
    goodWire f1 last d = goodWire f2 last d := by
  intro k
  induction k with
  | zero =>
    intro d f1 f2 last hk h1 h2
    have hd : d = [] := List.length_eq_zero.mp (by omega)
    subst hd
    cases f1 with
    | zero => omega
    | succ g1 => cases f2 with
      | zero => omega
      | succ g2 => rfl
  | succ k ih =>
    intro d f1 f2 last hk h1 h2
    match d with
    | [] =>
      cases f1 with
      | zero => omega
      | succ g1 => cases f2 with
        | zero => omega
        | succ g2 => rfl
    | x :: xs =>
      cases f1 with
      | zero => simp at h1
      | succ g1 =>
        cases f2 with
        | zero => simp at h2
        | succ g2 =>
          simp only [List.length_cons] at h1 h2 hk
          rw [goodWire, goodWire]
          rcases hT : consumeTag (x :: xs) with _ | ⟨num, wtype, n⟩
          · rfl
          · dsimp only
            have hTb := consumeTag_bounds (x :: xs) num wtype n hT
            simp only [List.length_cons] at hTb
            have hrest : ((x :: xs).drop n).length = xs.length + 1 - n := by
              rw [List.length_drop, List.length_cons]
            by_cases hw0 : wtype = 0
            · rw [if_pos hw0, if_pos hw0]
              rcases hV : consumeVarint ((x :: xs).drop n) with _ | ⟨v, n2⟩
              · rfl
              · dsimp only
                have hrec : goodWire g1 num (((x :: xs).drop n).drop n2) =
                    goodWire g2 num (((x :: xs).drop n).drop n2) := by
                  apply ih
                  · simp only [List.length_drop, List.length_cons]; omega
                  · simp only [List.length_drop, List.length_cons]; omega
                  · simp only [List.length_drop, List.length_cons]; omega
                rw [hrec]
            · rw [if_neg hw0, if_neg hw0]
              by_cases hw2 : wtype = 2
              · rw [if_pos hw2, if_pos hw2]
                rcases hV : consumeBytes ((x :: xs).drop n) with _ | ⟨v, n2⟩
                · rfl
                · dsimp only
                  have hVb := consumeBytes_bounds _ _ _ hV
                  rw [hrest] at hVb
                  have hrec : goodWire g1 num (((x :: xs).drop n).drop n2) =
                      goodWire g2 num (((x :: xs).drop n).drop n2) := by
                    apply ih
                    · simp only [List.length_drop, List.length_cons]; omega
                    · simp only [List.length_drop, List.length_cons]; omega
                    · simp only [List.length_drop, List.length_cons]; omega
                  have hnest : goodWire g1 0 v = goodWire g2 0 v := by
                    apply ih
                    · omega
                    · omega
                    · omega
                  rw [hrec, hnest]
              · rw [if_neg hw2, if_neg hw2]



theorem digitChar_toNat (m : Nat) (h : m < 10) :
    (Char.ofNat (48 + m)).toNat = 48 + m := by
  interval_cases m <;> decide

theorem digitChar_isDigit (m : Nat) (h : m < 10) :
    isDigitChar (Char.ofNat (48 + m)) = true := by
  interval_cases m <;> decide

theorem dcAux_fuel : ∀ (k f1 f2 m : Nat), m ≤ k → m ≤ f1 → m ≤ f2 →
    dcAux f1 m = dcAux f2 m := by
  intro k
  induction k with
  | zero =>
    intro f1 f2 m hk h1 h2
    have hm : m = 0 := by omega
    subst hm
    cases f1 <;> cases f2 <;> simp [dcAux]
  | succ k ih =>
    intro f1 f2 m hk h1 h2
    by_cases hm : m < 10
    · cases f1 <;> cases f2 <;> simp [dcAux, hm]
    · cases f1 with
      | zero => omega
      | succ g1 =>
        cases f2 with
        | zero => omega
        | succ g2 =>
          rw [dcAux, dcAux, if_neg hm, if_neg hm]
          rw [ih g1 g2 (m / 10) (by omega) (by omega) (by omega)]

theorem digitsChars_eq (n : Nat) :
    digitsChars n =
      if n < 10 then [Char.ofNat (48 + n % 10)]
      else digitsChars (n / 10) ++ [Char.ofNat (48 + n % 10)] := by
  unfold digitsChars
  by_cases hn : n < 10
  · rw [if_pos hn]
    cases n with
    | zero => rfl
    | succ g => rw [dcAux, if_pos hn]
  · rw [if_neg hn]
    cases n with
    | zero => omega
    | succ g =>
      rw [dcAux, if_neg hn]
      rw [dcAux_fuel g g ((g + 1) / 10) ((g + 1) / 10) (by omega) (by omega)
        (le_refl _)]

theorem digitsChars_all (n : Nat) : (digitsChars n).all isDigitChar = true := by
  induction n using Nat.strong_induction_on with
  | _ n ih =>
    rw [digitsChars_eq]
    by_cases hn : n < 10
    · rw [if_pos hn]
      simp only [List.all_cons, List.all_nil, Bool.and_true]
      exact digitChar_isDigit (n % 10) (by omega)
    · rw [if_neg hn]
      rw [List.all_append]
      rw [ih (n / 10) (by omega)]
      simp only [List.all_cons, List.all_nil, Bool.and_true, Bool.true_and]
      exact digitChar_isDigit (n % 10) (by omega)

theorem digitsChars_ne_nil (n : Nat) : digitsChars n ≠ [] := by
  rw [digitsChars_eq]
  by_cases hn : n < 10
  · rw [if_pos hn]; simp
  · rw [if_neg hn]; simp

theorem digitsVal_digitsChars (n : Nat) : digitsVal (digitsChars n) = n := by
  induction n using Nat.strong_induction_on with
  | _ n ih =>
    rw [digitsChars_eq]
    by_cases hn : n < 10
    · rw [if_pos hn]
      unfold digitsVal digitsValFrom
      rw [List.foldl_cons, List.foldl_nil]
      rw [digitChar_toNat (n % 10) (by omega)]
      omega
    · rw [if_neg hn]
      unfold digitsVal digitsValFrom
      rw [List.foldl_append, List.foldl_cons, List.foldl_nil]
      have h1 : List.foldl (fun m c => m * 10 + (c.toNat - 48)) 0
          (digitsChars (n / 10)) = n / 10 := ih (n / 10) (by omega)
      rw [h1, digitChar_toNat (n % 10) (by omega)]
      omega

theorem parseIntGoE_digits_ok (bitSize : Nat) (ds : List Char) (hne : ds ≠ [])
    (hd : ds.all isDigitChar = true)
    (hval : digitsVal ds < 2 ^ (bitSize - 1))
    (hbits : 2 ^ (bitSize - 1) ≤ 2 ^ 63) :
    parseIntGoE bitSize ⟨ds⟩ = ((digitsVal ds : Int), true) := by
  obtain ⟨c0, rest0, rfl⟩ : ∃ c0 rest0, ds = c0 :: rest0 := by
    cases ds with
    | nil => exact absurd rfl hne
    | cons a b => exact ⟨a, b, rfl⟩
  have hdig0 : 48 ≤ c0.toNat ∧ c0.toNat ≤ 57 := by
    rw [List.all_cons, Bool.and_eq_true] at hd
    have := hd.1
    unfold isDigitChar at this
    exact of_decide_eq_true this
  have hU : parseUint64 (c0 :: rest0) = (digitsVal (c0 :: rest0), none) := by
    unfold parseUint64
    rw [if_neg (by simp)]
    rw [List.all_cons, Bool.and_eq_true] at hd
    exact parseUintLoop_ok _ _ (by rw [List.all_cons, Bool.and_eq_true]; exact hd)
      (by unfold digitsVal at hval; omega)
  unfold parseIntGoE
  dsimp only
  rw [if_neg (by omega)]
  rw [hU]
  split
  · rename_i heq
    simp at heq
  · rename_i un e heq
    rw [Prod.mk.injEq] at heq
    obtain ⟨h1, h2⟩ := heq
    subst h1
    subst h2
    rw [if_neg (by intro h; omega), if_neg (by intro h; omega)]
    rw [if_neg (by omega)]
    simp

theorem intDecimal_nonneg (j : Int) (h : 0 ≤ j) :
    intDecimal j = ⟨digitsChars j.toNat⟩ := by
  unfold intDecimal natDecimal
  rw [if_neg (by omega)]

theorem parse32_intDecimal (j : Int) (h1 : 1 ≤ j) (h2 : j < 2 ^ 31) :
    parseIntGoE 32 (intDecimal j) = (j, true) := by
  rw [intDecimal_nonneg j (by omega)]
  rw [parseIntGoE_digits_ok 32 (digitsChars j.toNat) (digitsChars_ne_nil _)
    (digitsChars_all _) (by rw [digitsVal_digitsChars]; omega) (by norm_num)]
  rw [digitsVal_digitsChars]
  rw [Int.toNat_of_nonneg (by omega)]

theorem parse64_intDecimal (j : Int) (h1 : 0 ≤ j) (h2 : j < 2 ^ 63) :
    parseIntGo 64 (intDecimal j) = j := by
  rw [intDecimal_nonneg j h1]
  unfold parseIntGo
  rw [parseIntGoE_digits_ok 64 (digitsChars j.toNat) (digitsChars_ne_nil _)
    (digitsChars_all _) (by rw [digitsVal_digitsChars]; omega) (by norm_num)]
  rw [digitsVal_digitsChars]
  exact Int.toNat_of_nonneg h1

theorem intDecimal_inj (a b : Int) (ha1 : 1 ≤ a) (ha2 : a < 2 ^ 31)
    (hb1 : 1 ≤ b) (hb2 : b < 2 ^ 31) (h : intDecimal a = intDecimal b) :
    a = b := by
  have h1 := parse32_intDecimal a ha1 ha2
  have h2 := parse32_intDecimal b hb1 hb2
  rw [h] at h1
  simpa using h1.symm.trans h2

theorem f64round_small (n : Nat) (h : n ≤ 2 ^ 53) : f64round n = n := by
  unfold f64round
  rw [if_pos h]

theorem assocPut_fresh (m : List (String × GoVal)) (k : String) (v : GoVal)
    (h : ∀ p ∈ m, p.1 ≠ k) : assocPut m k v = m ++ [(k, v)] := by
  unfold assocPut
  rw [if_neg]
  intro hany
  rw [List.any_eq_true] at hany
  obtain ⟨p, hp, hpk⟩ := hany
  exact h p hp (by simpa using hpk)

theorem insEntry_lt (e x : String × Nat × List Nat)
    (l : List (String × Nat × List Nat)) (h : entryKey e < entryKey x) :
    insEntry e (x :: l) = e :: x :: l := by
  unfold insEntry
  rw [if_neg (by omega)]

theorem insSort_chain_id (l : List (String × Nat × List Nat))
    (h : List.Chain' (fun a b => entryKey a < entryKey b) l) :
    insSortEntries l = l := by
  induction l with
  | nil => rfl
  | cons x xs ih =>
    rw [insSortEntries]
    rw [ih (List.Chain'.tail h)]
    cases xs with
    | nil => rfl
    | cons y ys =>
      exact insEntry_lt x y ys (List.chain'_cons.mp h).1

/-- `strconv.ParseInt(s, 10, 32)` recovers a field number from its decimal
print. -/
theorem parseIntGo32_intDecimal (j : Int) (h1 : 1 ≤ j) (h2 : j < 2 ^ 31) :
    parseIntGo 32 (intDecimal j) = j := by
  unfold parseIntGo
  rw [parse32_intDecimal j h1 h2]

/-- The `sort.Slice` key of an encoded entry whose map key is the decimal
print of a valid field number is that field number. -/
theorem entryKey_intDecimal (j : Int) (t : Nat) (b : List Nat)
    (h1 : 1 ≤ j) (h2 : j < 2 ^ 31) :
    entryKey (intDecimal j, t, b) = j := by
  unfold entryKey
  exact parse64_intDecimal j (by omega) (lt_of_lt_of_le h2 (by norm_num))

/-- A field number above every field number recorded in the accumulator map
produces a fresh key, so `m[key] = v` appends. -/
theorem keysFresh (m0 : List (String × GoVal)) (last num : Int)
    (hm0 : ∀ p ∈ m0, ∃ j : Int, 1 ≤ j ∧ j ≤ last ∧ p.1 = intDecimal j)
    (hlt : last < num) (h31 : num < 2 ^ 31) :
    ∀ p ∈ m0, p.1 ≠ intDecimal num := by
  intro p hp heq
  obtain ⟨j, hj1, hj2, hj3⟩ := hm0 p hp
  have hje : j = num :=
    intDecimal_inj j num hj1 (by omega) (by omega) h31 (hj3.symm.trans heq)
  omega

/-- Main induction for the round trip: on a `goodWire` input, `protoWireToMap`'s
loop appends one entry per field to the accumulator, the JSON round trip
followed by `mapToProtoWire`'s per-entry encoding succeeds, the encoded
entries are already ascending in the sort key, and writing them out
reproduces the input bytes. -/
theorem roundtripAux : ∀ (k : Nat) (d : List Nat) (last : Int)
    (m0 : List (String × GoVal)), d.length ≤ k →
    goodWire (d.length + 1) last d = true →
    0 ≤ last → last < 2 ^ 31 →
    (∀ p ∈ m0, ∃ j : Int, 1 ≤ j ∧ j ≤ last ∧ p.1 = intDecimal j) →
    ∃ entries : List (String × GoVal),
      pwParse (d.length + 1) m0 d = some (m0 ++ entries) ∧
      (∀ p ∈ entries, ∃ j : Int, last < j ∧ j < 2 ^ 31 ∧ p.1 = intDecimal j) ∧
      ∃ blocks : List (String × Nat × List Nat),
        mtpEntries (jsonRTEntries entries) = some blocks ∧
        List.Chain' (fun a b => entryKey a < entryKey b) blocks ∧
        (∀ b ∈ blocks, last < entryKey b) ∧
        ∀ acc : List Nat,
          blocks.foldl
            (fun a e => a ++ appendTag (parseIntGo 32 e.1) e.2.1 ++ e.2.2) acc
            = acc ++ d := by
  intro k
  induction k with
  | zero =>
    intro d last m0 hk _ _ _ _
    have hd : d = [] := List.length_eq_zero.mp (by omega)
    subst hd
    exact ⟨[], by simp [pwParse], by simp, [], rfl, List.chain'_nil, by simp, by simp⟩
  | succ k ih =>
    intro d last m0 hk hgw hl0 hl31 hm0
    match d with
    | [] =>
      exact ⟨[], by simp [pwParse], by simp, [], rfl, List.chain'_nil, by simp, by simp⟩
    | x :: xs =>
      rw [goodWire] at hgw
      rcases hT : consumeTag (x :: xs) with _ | ⟨num, wtype, n⟩
      · rw [hT] at hgw; simp at hgw
      rw [hT] at hgw
      dsimp only at hgw
      have hTb := consumeTag_bounds (x :: xs) num wtype n hT
      simp only [List.length_cons] at hTb hk
      by_cases hw0 : wtype = 0
      · subst hw0
        rw [if_pos rfl] at hgw
        rcases hV : consumeVarint ((x :: xs).drop n) with _ | ⟨v, n2⟩
        · rw [hV] at hgw; simp at hgw
        rw [hV] at hgw
        dsimp only at hgw
        simp only [Bool.and_eq_true, decide_eq_true_eq] at hgw
        obtain ⟨⟨hlt, hcT⟩, ⟨hv53, hcV⟩, hrec⟩ := hgw
        have hVb := consumeVarint_bounds _ _ _ hV
        simp only [List.length_drop, List.length_cons] at hVb
        have hrec' : goodWire ((((x :: xs).drop n).drop n2).length + 1) num
            (((x :: xs).drop n).drop n2) = true := by
          rw [goodWire_fuel (((x :: xs).drop n).drop n2).length _ _
            ((x :: xs).length) num (le_refl _) (by omega)
            (by simp only [List.length_drop, List.length_cons]; omega)]
          exact hrec
        have hfresh : ∀ p ∈ m0, p.1 ≠ intDecimal num :=
          keysFresh m0 last num hm0 hlt hTb.2.2.2
        obtain ⟨entries1, hpw1, hkeys1, blocks1, hmtp1, hchain1, hgt1, hfold1⟩ :=
          ih (((x :: xs).drop n).drop n2) num
            (m0 ++ [(intDecimal num, GoVal.vUInt v)])
            (by simp only [List.length_drop, List.length_cons]; omega)
            hrec' (by omega) hTb.2.2.2
            (by
              intro p hp
              rcases List.mem_append.mp hp with hp | hp
              · obtain ⟨j, hj1, hj2, hj3⟩ := hm0 p hp
                exact ⟨j, hj1, by omega, hj3⟩
              · rw [List.mem_singleton] at hp
                subst hp
                exact ⟨num, by omega, le_refl _, rfl⟩)
        refine ⟨(intDecimal num, GoVal.vUInt v) :: entries1, ?_, ?_,
          (intDecimal num, 0, appendVarint v) :: blocks1, ?_, ?_, ?_, ?_⟩
        · rw [pwParse, hT]
          dsimp only
          rw [if_pos rfl, hV]
          dsimp only
          rw [assocPut_fresh m0 _ _ hfresh]
          rw [pwParse_fuel (((x :: xs).drop n).drop n2).length _ _
            ((((x :: xs).drop n).drop n2).length + 1) _ (le_refl _)
            (by simp only [List.length_drop, List.length_cons]; omega) (by omega)]
          rw [hpw1]
          rw [List.append_assoc, List.singleton_append]
        · intro p hp
          rcases List.mem_cons.mp hp with hp | hp
          · subst hp
            exact ⟨num, hlt, hTb.2.2.2, rfl⟩
          · obtain ⟨j, hj1, hj2, hj3⟩ := hkeys1 p hp
            exact ⟨j, by omega, hj2, hj3⟩
        · rw [jsonRTEntries, jsonRT, f64round_small v hv53]
          rw [mtpEntries]
          rw [parse32_intDecimal num (by omega) hTb.2.2.2]
          dsimp only
          rw [encodeVal]
          rw [if_pos (le_trans hv53 (by norm_num : (2 : Nat) ^ 53 ≤ 2 ^ 63))]
          rw [hmtp1]
          rfl
        · rw [List.chain'_cons']
          refine ⟨?_, hchain1⟩
          intro y hy
          have hym : y ∈ blocks1 := List.mem_of_mem_head? hy
          show entryKey (intDecimal num, 0, appendVarint v) < entryKey y
          rw [entryKey_intDecimal num 0 (appendVarint v) (by omega) hTb.2.2.2]
          exact hgt1 y hym
        · intro b hb
          rcases List.mem_cons.mp hb with hb | hb
          · subst hb
            rw [entryKey_intDecimal num 0 (appendVarint v) (by omega) hTb.2.2.2]
            exact hlt
          · exact lt_trans hlt (hgt1 b hb)
        · intro acc
          rw [List.foldl_cons]
          dsimp only
          rw [parseIntGo32_intDecimal num (by omega) hTb.2.2.2]
          rw [← hcT, ← hcV]
          rw [hfold1]
          rw [List.append_assoc, List.append_assoc, List.take_append_drop,
            List.take_append_drop]
      · rw [if_neg hw0] at hgw
        by_cases hw2 : wtype = 2
        · subst hw2
          rw [if_pos rfl] at hgw
          rcases hV : consumeBytes ((x :: xs).drop n) with _ | ⟨v, n2⟩
          · rw [hV] at hgw; simp at hgw
          rw [hV] at hgw
          dsimp only at hgw
          simp only [Bool.and_eq_true, decide_eq_true_eq] at hgw
          obtain ⟨⟨hlt, hcT⟩, ⟨hcB, hnestOK⟩, hrec⟩ := hgw
          have hBb := consumeBytes_bounds _ _ _ hV
          simp only [List.length_drop, List.length_cons] at hBb
          have hrec' : goodWire ((((x :: xs).drop n).drop n2).length + 1) num
              (((x :: xs).drop n).drop n2) = true := by
            rw [goodWire_fuel (((x :: xs).drop n).drop n2).length _ _
              ((x :: xs).length) num (le_refl _) (by omega)
              (by simp only [List.length_drop, List.length_cons]; omega)]
            exact hrec
          have hfresh : ∀ p ∈ m0, p.1 ≠ intDecimal num :=
            keysFresh m0 last num hm0 hlt hTb.2.2.2
          have hfv : pwParse ((x :: xs).length) [] v =
              pwParse (v.length + 1) [] v :=
            pwParse_fuel v.length v ((x :: xs).length) (v.length + 1) []
              (le_refl _) (by simp only [List.length_cons]; omega) (by omega)
          rcases hnest : pwParse (v.length + 1) [] v with _ | (_ | ⟨e0, es0⟩)
          · -- nested parse fails: string interpretation
            rw [hnest] at hnestOK
            dsimp only at hnestOK
            obtain ⟨entries1, hpw1, hkeys1, blocks1, hmtp1, hchain1, hgt1, hfold1⟩ :=
              ih (((x :: xs).drop n).drop n2) num
                (m0 ++ [(intDecimal num, GoVal.vStr v)])
                (by simp only [List.length_drop, List.length_cons]; omega)
                hrec' (by omega) hTb.2.2.2
                (by
                  intro p hp
                  rcases List.mem_append.mp hp with hp | hp
                  · obtain ⟨j, hj1, hj2, hj3⟩ := hm0 p hp
                    exact ⟨j, hj1, by omega, hj3⟩
                  · rw [List.mem_singleton] at hp
                    subst hp
                    exact ⟨num, by omega, le_refl _, rfl⟩)
            refine ⟨(intDecimal num, GoVal.vStr v) :: entries1, ?_, ?_,
              (intDecimal num, 2, appendBytes v) :: blocks1, ?_, ?_, ?_, ?_⟩
            · rw [pwParse, hT]
              dsimp only
              rw [if_neg (by decide), if_neg (by decide), if_neg (by decide),
                if_pos rfl, hV]
              dsimp only
              rw [hfv, hnest]
              dsimp only
              rw [if_pos hnestOK]
              rw [assocPut_fresh m0 _ _ hfresh]
              rw [pwParse_fuel (((x :: xs).drop n).drop n2).length _ _
                ((((x :: xs).drop n).drop n2).length + 1) _ (le_refl _)
                (by simp only [List.length_drop, List.length_cons]; omega)
                (by omega)]
              rw [hpw1]
              rw [List.append_assoc, List.singleton_append]
            · intro p hp
              rcases List.mem_cons.mp hp with hp | hp
              · subst hp
                exact ⟨num, hlt, hTb.2.2.2, rfl⟩
              · obtain ⟨j, hj1, hj2, hj3⟩ := hkeys1 p hp
                exact ⟨j, by omega, hj2, hj3⟩
            · rw [jsonRTEntries, jsonRT]
              rw [mtpEntries]
              rw [parse32_intDecimal num (by omega) hTb.2.2.2]
              dsimp only
              rw [encodeVal]
              rw [hmtp1]
              rfl
            · rw [List.chain'_cons']
              refine ⟨?_, hchain1⟩
              intro y hy
              have hym : y ∈ blocks1 := List.mem_of_mem_head? hy
              show entryKey (intDecimal num, 2, appendBytes v) < entryKey y
              rw [entryKey_intDecimal num 2 (appendBytes v) (by omega) hTb.2.2.2]
              exact hgt1 y hym
            · intro b hb
              rcases List.mem_cons.mp hb with hb | hb
              · subst hb
                rw [entryKey_intDecimal num 2 (appendBytes v) (by omega) hTb.2.2.2]
                exact hlt
              · exact lt_trans hlt (hgt1 b hb)
            · intro acc
              rw [List.foldl_cons]
              dsimp only
              rw [parseIntGo32_intDecimal num (by omega) hTb.2.2.2]
              rw [← hcT, ← hcB]
              rw [hfold1]
              rw [List.append_assoc, List.append_assoc, List.take_append_drop,
                List.take_append_drop]
          · -- nested parse yields the empty map: string interpretation
            rw [hnest] at hnestOK
            dsimp only at hnestOK
            obtain ⟨entries1, hpw1, hkeys1, blocks1, hmtp1, hchain1, hgt1, hfold1⟩ :=
              ih (((x :: xs).drop n).drop n2) num
                (m0 ++ [(intDecimal num, GoVal.vStr v)])
                (by simp only [List.length_drop, List.length_cons]; omega)
                hrec' (by omega) hTb.2.2.2
                (by
                  intro p hp
                  rcases List.mem_append.mp hp with hp | hp
                  · obtain ⟨j, hj1, hj2, hj3⟩ := hm0 p hp
                    exact ⟨j, hj1, by omega, hj3⟩
                  · rw [List.mem_singleton] at hp
                    subst hp
                    exact ⟨num, by omega, le_refl _, rfl⟩)
            refine ⟨(intDecimal num, GoVal.vStr v) :: entries1, ?_, ?_,
              (intDecimal num, 2, appendBytes v) :: blocks1, ?_, ?_, ?_, ?_⟩
            · rw [pwParse, hT]
              dsimp only
              rw [if_neg (by decide), if_neg (by decide), if_neg (by decide),
                if_pos rfl, hV]
              dsimp only
              rw [hfv, hnest]
              dsimp only
              rw [if_pos hnestOK]
              rw [assocPut_fresh m0 _ _ hfresh]
              rw [pwParse_fuel (((x :: xs).drop n).drop n2).length _ _
                ((((x :: xs).drop n).drop n2).length + 1) _ (le_refl _)
                (by simp only [List.length_drop, List.length_cons]; omega)
                (by omega)]
              rw [hpw1]
              rw [List.append_assoc, List.singleton_append]
            · intro p hp
              rcases List.mem_cons.mp hp with hp | hp
              · subst hp
                exact ⟨num, hlt, hTb.2.2.2, rfl⟩
              · obtain ⟨j, hj1, hj2, hj3⟩ := hkeys1 p hp
                exact ⟨j, by omega, hj2, hj3⟩
            · rw [jsonRTEntries, jsonRT]
              rw [mtpEntries]
              rw [parse32_intDecimal num (by omega) hTb.2.2.2]
              dsimp only
              rw [encodeVal]
              rw [hmtp1]
              rfl
            · rw [List.chain'_cons']
              refine ⟨?_, hchain1⟩
              intro y hy
              have hym : y ∈ blocks1 := List.mem_of_mem_head? hy
              show entryKey (intDecimal num, 2, appendBytes v) < entryKey y
              rw [entryKey_intDecimal num 2 (appendBytes v) (by omega) hTb.2.2.2]
              exact hgt1 y hym
            · intro b hb
              rcases List.mem_cons.mp hb with hb | hb
              · subst hb
                rw [entryKey_intDecimal num 2 (appendBytes v) (by omega) hTb.2.2.2]
                exact hlt
              · exact lt_trans hlt (hgt1 b hb)
            · intro acc
              rw [List.foldl_cons]
              dsimp only
              rw [parseIntGo32_intDecimal num (by omega) hTb.2.2.2]
              rw [← hcT, ← hcB]
              rw [hfold1]
              rw [List.append_assoc, List.append_assoc, List.take_append_drop,
                List.take_append_drop]
          · -- nested parse yields a nonempty map: recursive case
            rw [hnest] at hnestOK
            dsimp only at hnestOK
            have hnestGW : goodWire (v.length + 1) 0 v = true := by
              rw [goodWire_fuel v.length v _ ((x :: xs).length) 0 (le_refl _)
                (by omega) (by simp only [List.length_cons]; omega)]
              exact hnestOK
            obtain ⟨entriesV, hpwV, hkeysV, blocksV, hmtpV, hchainV, hgtV, hfoldV⟩ :=
              ih v 0 [] (by omega) hnestGW
                (le_refl 0) (by norm_num) (by simp)
            rw [List.nil_append] at hpwV
            rw [hnest] at hpwV
            have hEV : e0 :: es0 = entriesV := Option.some.inj hpwV
            subst hEV
            have hasm : mtpAssemble blocksV = v := by
              unfold mtpAssemble
              rw [insSort_chain_id blocksV hchainV]
              have hfv0 := hfoldV []
              rw [List.nil_append] at hfv0
              exact hfv0
            obtain ⟨entries1, hpw1, hkeys1, blocks1, hmtp1, hchain1, hgt1, hfold1⟩ :=
              ih (((x :: xs).drop n).drop n2) num
                (m0 ++ [(intDecimal num, GoVal.vMap (e0 :: es0))])
                (by simp only [List.length_drop, List.length_cons]; omega)
                hrec' (by omega) hTb.2.2.2
                (by
                  intro p hp
                  rcases List.mem_append.mp hp with hp | hp
                  · obtain ⟨j, hj1, hj2, hj3⟩ := hm0 p hp
                    exact ⟨j, hj1, by omega, hj3⟩
                  · rw [List.mem_singleton] at hp
                    subst hp
                    exact ⟨num, by omega, le_refl _, rfl⟩)
            refine ⟨(intDecimal num, GoVal.vMap (e0 :: es0)) :: entries1, ?_, ?_,
              (intDecimal num, 2, appendBytes v) :: blocks1, ?_, ?_, ?_, ?_⟩
            · rw [pwParse, hT]
              dsimp only
              rw [if_neg (by decide), if_neg (by decide), if_neg (by decide),
                if_pos rfl, hV]
              dsimp only
              rw [hfv, hnest]
              dsimp only
              rw [assocPut_fresh m0 _ _ hfresh]
              rw [pwParse_fuel (((x :: xs).drop n).drop n2).length _ _
                ((((x :: xs).drop n).drop n2).length + 1) _ (le_refl _)
                (by simp only [List.length_drop, List.length_cons]; omega)
                (by omega)]
              rw [hpw1]
              rw [List.append_assoc, List.singleton_append]
            · intro p hp
              rcases List.mem_cons.mp hp with hp | hp
              · subst hp
                exact ⟨num, hlt, hTb.2.2.2, rfl⟩
              · obtain ⟨j, hj1, hj2, hj3⟩ := hkeys1 p hp
                exact ⟨j, by omega, hj2, hj3⟩
            · rw [jsonRTEntries, jsonRT]
              rw [mtpEntries]
              rw [parse32_intDecimal num (by omega) hTb.2.2.2]
              dsimp only
              rw [encodeVal]
              rw [hmtpV]
              dsimp only
              rw [hasm]
              rw [hmtp1]
              rfl
            · rw [List.chain'_cons']
              refine ⟨?_, hchain1⟩
              intro y hy
              have hym : y ∈ blocks1 := List.mem_of_mem_head? hy
              show entryKey (intDecimal num, 2, appendBytes v) < entryKey y
              rw [entryKey_intDecimal num 2 (appendBytes v) (by omega) hTb.2.2.2]
              exact hgt1 y hym
            · intro b hb
              rcases List.mem_cons.mp hb with hb | hb
              · subst hb
                rw [entryKey_intDecimal num 2 (appendBytes v) (by omega) hTb.2.2.2]
                exact hlt
              · exact lt_trans hlt (hgt1 b hb)
            · intro acc
              rw [List.foldl_cons]
              dsimp only
              rw [parseIntGo32_intDecimal num (by omega) hTb.2.2.2]
              rw [← hcT, ← hcB]
              rw [hfold1]
              rw [List.append_assoc, List.append_assoc, List.take_append_drop,
                List.take_append_drop]
        · rw [if_neg hw2] at hgw
          simp at hgw

/-- C4 (amended): on an input whose fields appear with strictly increasing
field numbers, whose varints are canonically encoded with values at most
`2^53`, and whose length-delimited values recursively satisfy the same
conditions or are printable UTF-8 (`goodWireTop`), converting the
protobuf wire format to JSON and back (`ProtoWireToJSON` then
`JSONToProtoWire`) reproduces the original bytes. -/
theorem wire_json_wire_roundtrip (w : List Nat) (hg : goodWireTop w = true) :
    wireToJsonToWire w = some w := by
  have hg2 : goodWire (w.length + 1) 0 w = true := hg
  obtain ⟨entries, hpw, hkeys, blocks, hmtp, hchain, hgt, hfold⟩ :=
    roundtripAux w.length w 0 [] (le_refl _) hg2 (le_refl 0) (by norm_num)
      (by simp)
  rw [List.nil_append] at hpw
  unfold wireToJsonToWire protoWireToMap
  rw [hpw]
  dsimp only
  unfold mapToProtoWire
  rw [hmtp]
  rw [Option.map_some']
  unfold mtpAssemble
  rw [insSort_chain_id blocks hchain]
  rw [hfold []]
  rw [List.nil_append]

/-- Witness for `wire_json_wire_roundtrip`: the two-byte message `08 05`
(field 1, varint 5) satisfies `goodWireTop` and round-trips to itself. -/
theorem wire_json_wire_roundtrip_witness :
    goodWireTop [8, 5] = true ∧ wireToJsonToWire [8, 5] = some [8, 5] :=
  ⟨by decide, wire_json_wire_roundtrip [8, 5] (by decide)⟩



/-- C7: the Connect status extractor returns OK (0, empty message) for
HTTP 200 and otherwise maps the HTTP status through the Connect
`httpToCode` table — 400 → Internal 13, 401 → Unauthenticated 16,
403 → PermissionDenied 7, 404 → Unimplemented 12, 429 → Unavailable 14,
502/503/504 → Unavailable 14, anything else → Unknown 2 — with the HTTP
status text as the message. -/
theorem extractConnectStatus_spec (sc : Nat) (st : String) :
    extractConnectStatus sc st =
      if sc = 200 then ((0 : Int), "")
      else if sc = 400 then (13, st)
      else if sc = 401 then (16, st)
      else if sc = 403 then (7, st)
      else if sc = 404 then (12, st)
      else if sc = 429 then (14, st)
      else if sc = 502 ∨ sc = 503 ∨ sc = 504 then (14, st)
      else (2, st) := by
  unfold extractConnectStatus httpStatusToGRPCCode
  split_ifs <;> rfl

/-- C3 (supporting theorem): the proxy body computation applies no size
bound after gzip decompression — a captured gRPC frame of 6 bytes (well
under `MaxCaptureSize`) whose compressed payload inflates to
`MaxCaptureSize + 1` bytes yields an event body of `MaxCaptureSize + 1`
bytes, exceeding the documented cap. -/
theorem capture_cap_violated_by_decompression :
    ([1, 0, 0, 0, 1, 0] : List Nat).length ≤ MaxCaptureSize ∧
    (proxyBody expandingGunzip Protocol.grpc [1, 0, 0, 0, 1, 0]).length
      = MaxCaptureSize + 1 := by
  constructor
  · simp [MaxCaptureSize]
  · have h1 : proxyBody expandingGunzip Protocol.grpc [1, 0, 0, 0, 1, 0] =
        List.replicate (MaxCaptureSize + 1) 0 := by
      simp only [proxyBody, ExtractPayload, expandingGunzip, be32,
        List.length_cons, List.length_nil]
      norm_num
    rw [h1, List.length_replicate]

/-- C4 (counterexample): the byte sequence `08 00 08 01` uses only the
varint wire type and has no length-delimited field at all, so it satisfies
the claim's precondition; yet wire → JSON → wire yields `08 01` (the later
duplicate of field 1 overwrites the earlier one in the map), not the
original bytes. -/
theorem wireToJsonToWire_not_identity :
    tagsOnlyVB [8, 0, 8, 1] = true ∧
    wireToJsonToWire [8, 0, 8, 1] = some [8, 1] ∧
    some [8, 1] ≠ some ([8, 0, 8, 1] : List Nat) := by
  refine ⟨by decide, by decide, by decide⟩

/-- C6 (counterexample): a `Grpc-Status` trailer of `"2147483648"` fails
to parse as an `int32` (range error), but the extractor reports the
clamped value 2147483647, not the claimed 0. -/
theorem grpcStatus_range_error_not_zero :
    extractGRPCStatus
        (fun k => if k = "Grpc-Status" then "2147483648" else "")
        (fun _ => "") = (2147483647, "") ∧
    (parseIntGoE 32 "2147483648").2 = false ∧
    ((2147483647 : Int), ("" : String)) ≠ ((0 : Int), "") := by
  refine ⟨by decide, by decide, by decide⟩

/-- C10 (counterexample): the key `"-1"` does not parse as a non-negative
field number, yet `mapToProtoWire` encodes the map successfully instead of
returning an error — `strconv.ParseInt(key, 10, 32)` accepts the sign. -/
theorem mapToProtoWire_negative_key_accepted :
    (mapToProtoWire [("-1", GoVal.vStr [97])]).isSome = true ∧
    parseIntGo 32 "-1" < 0 := by
  refine ⟨by decide, by decide⟩

/-- C10 (amended): whenever `mapToProtoWire` succeeds, every key of the
input map parses under `strconv.ParseInt(key, 10, 32)` — a signed decimal
integer fitting `int32`, possibly negative; conversely a map containing a
key that fails that parse (malformed or out of the signed 32-bit range) is
an encoding error. -/
theorem mapToProtoWire_keys_parse (m : List (String × GoVal)) :
    ((mapToProtoWire m).isSome = true →
      ∀ k ∈ m.map Prod.fst, (parseIntGoE 32 k).2 = true) ∧
    ((∃ k ∈ m.map Prod.fst, (parseIntGoE 32 k).2 = false) →
      mapToProtoWire m = none) := by
  have main : ∀ es, mtpEntries m = some es →
      ∀ k ∈ m.map Prod.fst, (parseIntGoE 32 k).2 = true := by
    induction m with
    | nil => intro es _ k hk; simp at hk
    | cons e rest ih =>
      intro es hes k hk
      obtain ⟨k0, v0⟩ := e
      rw [mtpEntries] at hes
      by_cases hok : (parseIntGoE 32 k0).2 = true
      · simp only [hok, if_true] at hes
        rcases hv : encodeVal v0 with _ | tv
        · rw [hv] at hes; exact absurd hes (by simp)
        · rw [hv] at hes
          rcases hrest : mtpEntries rest with _ | es'
          · rw [hrest] at hes; exact absurd hes (by simp)
          · simp only [List.map_cons, List.mem_cons] at hk
            rcases hk with hk | hk
            · subst hk; exact hok
            · exact ih es' hrest k hk
      · rw [Bool.not_eq_true] at hok
        rw [hok] at hes
        simp at hes
  constructor
  · intro hsome
    rcases hes : mtpEntries m with _ | es
    · rw [mapToProtoWire, hes] at hsome; simp at hsome
    · exact main es hes
  · rintro ⟨k, hk, hbad⟩
    rcases hes : mtpEntries m with _ | es
    · rw [mapToProtoWire, hes]; rfl
    · have := main es hes k hk
      rw [this] at hbad
      exact absurd hbad (by simp)

/-- Witness for `mapToProtoWire_keys_parse` at a concrete map. -/
theorem mapToProtoWire_keys_parse_witness :
    (parseIntGoE 32 "3").2 = true ∧ mapToProtoWire [("x", GoVal.vBool true)] = none := by
  constructor
  · decide
  · exact (mapToProtoWire_keys_parse [("x", GoVal.vBool true)]).2
      ⟨"x", by decide, by decide⟩

end GrpcTap
